import Mathlib

/-
Verification of the GO enrichment core of `obiGO.py` and the FDR post-pass of
the GO enrichment widget (`OWGOEnrichmentAnalysis.py`).

The Python code is shallowly embedded as executable Lean functions:

* Python `dict`s are association lists (`List (key × value)`) with
  overwrite-in-place assignment (`assocSet`) and `assocFind?` lookup;
* Python `set`s of hashable values are `Finset`s (for values) or
  duplicate-free `List`s (where the code iterates and mutates);
* raised exceptions (`KeyError`, `NameError`, `ValueError`) are an
  `Except PyError` result channel; mutations performed before the raise are
  kept, so stateful functions return the cache alongside the `Except`;
* the two potentially non-terminating recursions (`_CollectAnnotations` and
  the `while queue:` closure loops) take a fuel argument and return `none`
  when the fuel runs out, which models non-termination;
* `Annotation` objects (class `Annotation` of the `go` module) are `AnnRec`
  records; the `idx` field models Python object identity (one fresh object
  per parsed line), so that sets of annotations compare like sets of
  objects;
* float probabilities are ℚ; the significance test (`obiProb.Binomial`,
  an external collaborator consumed as a pure function of four integers)
  is a parameter `pV`; the module-level `evidenceDict` of the `go` module
  is likewise a parameter `evDict` (only its key set is ever used), and the
  `multipleTagSet` of tags declared multi-valued is a parameter `mts`.
-/

inductive PyError
  | keyError (key : String)
  | nameError (missing : String)
  | valueError (msg : String)
deriving DecidableEq, Repr

/-- Python `dict` lookup on an association list. -/
def assocFind? {α β : Type} [DecidableEq α] (k : α) : List (α × β) → Option β
  | [] => none
  | (k', v) :: rest => if k' = k then some v else assocFind? k rest

/-- Python `dict` assignment: overwrite the value at an existing key in place,
otherwise append the new binding (Python dicts keep first-insertion order). -/
def assocSet {α β : Type} [DecidableEq α] (k : α) (v : β) : List (α × β) → List (α × β)
  | [] => [(k, v)]
  | (k', v') :: rest => if k' = k then (k', v) :: rest else (k', v') :: assocSet k v rest

/-! ## OBO stanza parsing (`OBOObject.ParseStanza`, obiGO.py lines 81-99)

Lines are lists of characters; Python string methods become explicit
list functions. -/

/-- Python `s.split(sep, 1)`: split at the first occurrence, `none` when the
separator is absent. -/
def splitFirst (c : Char) : List Char → Option (List Char × List Char)
  | [] => none
  | x :: xs =>
    if x = c then some ([], xs)
    else (splitFirst c xs).map (fun p => (x :: p.1, p.2))

/-- Python `s.split(sep)` without a maxsplit: all fields, in order. -/
def splitAll (c : Char) : List Char → List (List Char)
  | [] => [[]]
  | x :: xs =>
    match splitAll c xs with
    | [] => [[x]]
    | h :: t => if x = c then [] :: h :: t else (x :: h) :: t

/-- Python `s.strip("}")`: drop `'}'` characters from both ends. -/
def stripRBraces (l : List Char) : List Char :=
  ((l.dropWhile (fun c => c = '}')).reverse.dropWhile (fun c => c = '}')).reverse

/-- Python `s.strip()`: drop whitespace from both ends. -/
def trimValue (l : List Char) : List Char :=
  ((l.dropWhile Char.isWhitespace).reverse.dropWhile Char.isWhitespace).reverse

/-- A value of `self.values[tag]`: a single string, or the accumulated list
for tags in the multiple-tag set. -/
inductive TagVal
  | sing (v : List Char)
  | multi (vs : List (List Char))
deriving DecidableEq, Repr

abbrev TagValues := List (List Char × TagVal)

/-- The `self.values` update at the end of the `ParseStanza` loop body:
tags in `mts` accumulate (`values.get(tag, []) + [value]`), other tags
overwrite. -/
def setValue (mts : List (List Char)) (vals : TagValues) (tag v : List Char) : TagValues :=
  if tag ∈ mts then
    let old := match assocFind? tag vals with
      | some (.multi l) => l
      | _ => []
    assocSet tag (.multi (old ++ [v])) vals
  else
    assocSet tag (.sing v) vals

/-- One iteration of the `ParseStanza` line loop (obiGO.py lines 82-99).
A line with no colon is skipped.  `tag, rest = line.split(":", 1)`; if `rest`
contains `"!"` then `rest, comment = rest.split("!")` — an unpacking that
raises `ValueError` unless `rest` holds exactly one `'!'`; a `"{"` starts the
modifier block (`rest.split("{", 1)`, modifiers stripped of `'}'`); the value
is whitespace-trimmed and stored. -/
def processLine (mts : List (List Char)) (vals : TagValues) (line : List Char) :
    Except PyError TagValues :=
  match splitFirst ':' line with
  | none => .ok vals
  | some (tag, rest0) =>
    match (if '!' ∈ rest0 then
             match splitAll '!' rest0 with
             | [a, _b] => Except.ok a
             | _ => Except.error (PyError.valueError "too many values to unpack")
           else Except.ok rest0 : Except PyError (List Char)) with
    | .error e => .error e
    | .ok rest =>
      let value := match splitFirst '{' rest with
        | some (v, _mods) => v
        | none => rest
      .ok (setValue mts vals tag (trimValue value))

/-- `OBOObject.ParseStanza` restricted to building `self.values`: fold the
line loop over the stanza's lines (the stanza text split at newlines). -/
def ParseStanza (mts : List (List Char)) (lines : List (List Char)) :
    Except PyError TagValues :=
  lines.foldlM (processLine mts) []

/-! ## Ontology graph (`class Ontology`, obiGO.py lines 136-212) -/

/-- One parsed `Term`: its forward relation edges (`self.related`, pairs
`(typeId, parent-id)`) and the reverse edges added after parsing
(`self.relatedTo`, pairs `(typeId, child-id)`).  Both are Python sets,
modelled as duplicate-free lists in iteration order. -/
structure TermData where
  related : List (String × String)
  relatedTo : List (String × String)
deriving DecidableEq, Repr

/-- The ontology: `self.terms`, a dict from term id to term. -/
structure Ontology where
  terms : List (String × TermData)
deriving DecidableEq, Repr

def Ontology.find? (O : Ontology) (id : String) : Option TermData :=
  assocFind? id O.terms

/-- `Ontology.__getitem__` (obiGO.py lines 211-212): `self.terms[name]`,
raising `KeyError` when the id is absent. -/
def Ontology.getItem (O : Ontology) (id : String) : Except PyError TermData :=
  match O.find? id with
  | some td => .ok td
  | none => .error (.keyError id)

/-- Successor ids along forward edges: `set(id for typeId, id in
self.terms[term].related)`; `none` models the `KeyError` of `self.terms[term]`. -/
def nextUp (O : Ontology) (t : String) : Option (List String) :=
  (O.find? t).map (fun td => td.related.map Prod.snd)

/-- Successor ids along reverse edges (`relatedTo`). -/
def nextDown (O : Ontology) (t : String) : Option (List String) :=
  (O.find? t).map (fun td => td.relatedTo.map Prod.snd)

/-- The body of `ExtractSuperGraph`/`ExtractSubGraph` (obiGO.py lines
184-204): `while queue: term = queue.pop(); visited.add(term);
queue.update(successors - visited)`.  The queue is a Python set: kept
duplicate-free and disjoint from `visited`; `pop` takes the head.  Fuel
bounds the number of iterations; `none` models non-termination. -/
def extractLoop (next : String → Option (List String)) :
    ℕ → List String → List String → Option (Except PyError (List String))
  | 0, _, _ => none
  | _ + 1, visited, [] => some (.ok visited)
  | fuel + 1, visited, t :: rest =>
    let visited' := if t ∈ visited then visited else visited ++ [t]
    match next t with
    | none => some (.error (.keyError t))
    | some ns =>
      let fresh := (ns.filter (fun p => decide (p ∉ visited' ∧ p ∉ rest))).dedup
      extractLoop next fuel visited' (rest ++ fresh)

/-- Fuel sufficient for the closure loops: one more than the initial value of
the potential `|keys \ (visited ∪ queue)| + |queue|`, which strictly
decreases at every iteration (see `extractLoop_runs`). -/
def Ontology.extractFuel (O : Ontology) (seeds : List String) : ℕ :=
  O.terms.length + seeds.dedup.length + 1

/-- `Ontology.ExtractSuperGraph` (obiGO.py lines 184-193): all super terms of
`terms` up to the most general one. -/
def Ontology.ExtractSuperGraph (O : Ontology) (terms : List String) :
    Option (Except PyError (List String)) :=
  extractLoop (nextUp O) (O.extractFuel terms) [] terms.dedup

/-- `Ontology.ExtractSubGraph` (obiGO.py lines 195-204): all sub terms of
`terms`. -/
def Ontology.ExtractSubGraph (O : Ontology) (terms : List String) :
    Option (Except PyError (List String)) :=
  extractLoop (nextDown O) (O.extractFuel terms) [] terms.dedup

/-- One step along `next`-successors. -/
abbrev stepVia (next : String → Option (List String)) (x y : String) : Prop :=
  ∃ ns, next x = some ns ∧ y ∈ ns

/-- Reachability along `next`-successors (reflexive-transitive closure). -/
abbrev ReachVia (next : String → Option (List String)) : String → String → Prop :=
  Relation.ReflTransGen (stepVia next)

/-- Reachability from any seed of a list. -/
abbrev ReachFromVia (next : String → Option (List String)) (seeds : List String)
    (x : String) : Prop :=
  ∃ s ∈ seeds, ReachVia next s x

/-- `Ontology.GetTermDepth` (obiGO.py lines 206-209).  The function's
parameter is `cache_`, but its body tests `term not in cache` and reads and
writes `cache[term]`; the name `cache` is bound nowhere (neither in the
function, nor in the module, nor by `from go import *`-style builtins), so
the very first statement of any call raises `NameError: name 'cache' is not
defined` before any depth is computed. -/
def Ontology.GetTermDepth (_O : Ontology) (_term : String) : Except PyError ℕ :=
  .error (.nameError "cache")

/-- Point update of `self.terms` at one key (`none` when the key is absent,
modelling `KeyError`). -/
def updateAt (k : String) (f : TermData → TermData) :
    List (String × TermData) → Option (List (String × TermData))
  | [] => none
  | (k', v) :: rest =>
    if k' = k then some ((k', f v) :: rest)
    else (updateAt k f rest).map (fun r => (k', v) :: r)

/-- `self.terms[parent].relatedTo.add((typeId, id))`: set insertion. -/
def addRelatedTo (ty id : String) (td : TermData) : TermData :=
  { td with
    relatedTo := if (ty, id) ∈ td.relatedTo then td.relatedTo else td.relatedTo ++ [(ty, id)] }

/-- The edges `(typeId, parent, id)` enumerated by the nested loops
`for id, term in self.terms.items(): for typeId, parent in term.related:`
(obiGO.py lines 180-182), flattened in iteration order. -/
def edgeTriples (ts : List (String × TermData)) : List (String × String × String) :=
  ts.foldr (fun p acc => p.2.related.map (fun e => (e.1, e.2, p.1)) ++ acc) []

/-- The reverse-edge pass at the end of `Ontology.ParseFile` (obiGO.py lines
179-182): for every forward edge `(typeId, parent)` of term `id`, add
`(typeId, id)` to `terms[parent].relatedTo`; `KeyError` when a parent id is
absent.  Only `relatedTo` is mutated, so reading `related` from the evolving
map equals reading it from the iteration snapshot. -/
def invertEdges (ts : List (String × TermData)) : Except PyError (List (String × TermData)) :=
  (edgeTriples ts).foldlM
    (fun acc tri =>
      match updateAt tri.2.1 (addRelatedTo tri.1 tri.2.2) acc with
      | some acc' => .ok acc'
      | none => .error (.keyError tri.2.1))
    ts

/-! ## Annotation store (`class Annotations`, obiGO.py lines 229-362) -/

/-- One gene-to-term association record (class `Annotation` of the `go`
module; only the fields read by the code under verification).  `idx` models
Python object identity: `ParseFile` creates one fresh object per line, and
sets of annotations are sets of objects. -/
structure AnnRec where
  idx : ℕ
  geneName : String
  GOId : String
  evidenceCode : String
  aspect : String
deriving DecidableEq, Repr

/-- The annotation store after `Annotations.ParseFile`: the parsed record
list (file order, records with empty gene name or GO id already skipped),
the shared ontology, and the two alias dictionaries built during parsing. -/
structure Annotations where
  ontology : Ontology
  annotations : List AnnRec
  aliasMapper : List (String × String)
  additionalAliases : List (String × String)

/-- A deterministic stand-in for Python's (arbitrary) set iteration order:
iterate a set of strings in sorted order. -/
def strIter (s : Finset String) : List String :=
  Quot.liftOn s.val (List.insertionSort (fun a b => a ≤ b))
    (fun _ _ h =>
      List.eq_of_perm_of_sorted
        (((List.perm_insertionSort _ _).trans h).trans (List.perm_insertionSort _ _).symm)
        (List.sorted_insertionSort _ _) (List.sorted_insertionSort _ _))

/-- `self.geneAnnotations[gene]`: the records of one gene, in file order
(`defaultdict(list)`, so absent genes give `[]`). -/
def Annotations.geneAnnotations (A : Annotations) (g : String) : List AnnRec :=
  A.annotations.filter (fun a => decide (a.geneName = g))

/-- `self.termAnnotations[id]`: the records naming one term directly, in file
order (`defaultdict(list)`). -/
def Annotations.termAnnotations (A : Annotations) (t : String) : List AnnRec :=
  A.annotations.filter (fun a => decide (a.GOId = t))

/-- `self.termAnnotations[id]` as a set of objects. -/
def Annotations.termAnnotationsF (A : Annotations) (t : String) : Finset AnnRec :=
  (A.termAnnotations t).toFinset

/-- `self.geneNames`: every canonical gene name seen. -/
def Annotations.geneNames (A : Annotations) : Finset String :=
  (A.annotations.map (fun a => a.geneName)).toFinset

/-- An element of a raw `self.allAnnotations[id]` list: either a direct
annotation list (`termAnnotations[id]` or a chunk copied from a child's raw
list) or an already-reduced child set. -/
abbrev AnnChunk := List AnnRec ⊕ Finset AnnRec

/-- A `self.allAnnotations` cache entry: the raw chunk list built by
`_CollectAnnotations`, or the reduced set built by `GetAllAnnotations`. -/
inductive CacheVal
  | raw (chunks : List AnnChunk)
  | reduced (s : Finset AnnRec)
deriving DecidableEq

abbrev AnnCache := List (String × CacheVal)

def chunkElems : AnnChunk → Finset AnnRec
  | .inl l => l.toFinset
  | .inr s => s

def chunksElems (cs : List AnnChunk) : Finset AnnRec :=
  cs.foldr (fun c acc => chunkElems c ∪ acc) ∅

/-- The set of annotations held by a cache entry (`annot_set.update(annots)`
over the entry's chunks, or the reduced set itself). -/
def CacheVal.elems : CacheVal → Finset AnnRec
  | .raw cs => chunksElems cs
  | .reduced s => s

/-- The `for typeId, child in self.ontology[id].relatedTo:` loop of
`_CollectAnnotations`, threading the cache left to right; `collect` is the
recursive call at the next fuel level. -/
def collectStep (collect : AnnCache → String → Option (AnnCache × Except PyError CacheVal)) :
    AnnCache → List (String × String) → Option (AnnCache × Except PyError (List AnnChunk))
  | cache, [] => some (cache, .ok [])
  | cache, (_, child) :: cs =>
    match collect cache child with
    | none => none
    | some (c₁, .error e) => some (c₁, .error e)
    | some (c₁, .ok v) =>
      match collectStep collect c₁ cs with
      | none => none
      | some (c₂, .error e) => some (c₂, .error e)
      | some (c₂, .ok chunks) =>
        let newChunks := match v with
          | .reduced s => [Sum.inr s]
          | .raw l => l
        some (c₂, .ok (newChunks ++ chunks))

/-- `Annotations._CollectAnnotations` (obiGO.py lines 297-307).  If `id` is
cached, return the entry; otherwise start from `[termAnnotations[id]]`,
recurse into every `relatedTo` child (appending a reduced child set as one
element, extending with a raw child's chunk list), store the raw list and
return it.  `self.ontology[id]` raises `KeyError` on an absent id;
partial cache mutations made before a raise are kept. -/
def Annotations.CollectAnnotations (A : Annotations) :
    ℕ → AnnCache → String → Option (AnnCache × Except PyError CacheVal)
  | 0, _, _ => none
  | fuel + 1, cache, id =>
    match assocFind? id cache with
    | some v => some (cache, .ok v)
    | none =>
      match A.ontology.find? id with
      | none => some (cache, .error (.keyError id))
      | some td =>
        match collectStep (A.CollectAnnotations fuel) cache td.relatedTo with
        | none => none
        | some (c₁, .error e) => some (c₁, .error e)
        | some (c₁, .ok chunks) =>
          let v := CacheVal.raw (Sum.inl (A.termAnnotations id) :: chunks)
          some (assocSet id v c₁, .ok v)

/-- `Annotations.GetAllAnnotations` (obiGO.py lines 309-317): if the entry is
absent or still a raw list, union every chunk of `_CollectAnnotations(id)`
into a set, store and return it; otherwise return the cached reduced set. -/
def Annotations.GetAllAnnotations (A : Annotations) (fuel : ℕ) (cache : AnnCache)
    (id : String) : Option (AnnCache × Except PyError (Finset AnnRec)) :=
  match assocFind? id cache with
  | some (.reduced s) => some (cache, .ok s)
  | _ =>
    match A.CollectAnnotations fuel cache id with
    | none => none
    | some (c₁, .error e) => some (c₁, .error e)
    | some (c₁, .ok v) => some (assocSet id (.reduced v.elems) c₁, .ok v.elems)

/-- The `alias` helper of `GetGeneNamesTranslator` (obiGO.py lines 292-295):
`self.aliasMapper.get(gene, self.additionalAliases.get(gene, None))`. -/
def Annotations.aliasOf (A : Annotations) (g : String) : Option String :=
  match assocFind? g A.aliasMapper with
  | some c => some c
  | none => assocFind? g A.additionalAliases

/-- `Annotations.GetGeneNamesTranslator`: `dict([(alias(gene), gene) for gene
in genes if alias(gene)])` — canonical name to original input name; genes
whose alias is `None` (or the falsy `""`) are dropped, later genes overwrite
earlier ones at the same canonical name. -/
def Annotations.GetGeneNamesTranslator (A : Annotations) (genes : List String) :
    List (String × String) :=
  genes.foldl
    (fun d g =>
      match A.aliasOf g with
      | some c => if c = "" then d else assocSet c g d
      | none => d)
    []

/-- `reference = set(reference) if reference else self.geneNames` (obiGO.py
line 332): `None` and the empty collection are falsy and default to the
store's full gene-name set. -/
def Annotations.resolveReference (A : Annotations) (reference : Option (List String)) :
    Finset String :=
  match reference with
  | none => A.geneNames
  | some l => if l.isEmpty then A.geneNames else l.toFinset

/-- `set(evidenceCodes or evidenceDict.keys())` (obiGO.py line 333): `None`
and the empty list default to all known evidence codes (`evDict`). -/
def evSetOf (evDict : Finset String) (evidenceCodes : Option (List String)) : Finset String :=
  match evidenceCodes with
  | none => evDict
  | some l => if l.isEmpty then evDict else l.toFinset

/-- The list comprehension `[ann for gene in gs for ann in
self.geneAnnotations[gene] if ann.Evidence_code in evidenceCodes and
ann.Aspect == aspect]` (obiGO.py lines 334-335). -/
def Annotations.filteredAnns (A : Annotations) (evSet : Finset String) (aspect : String)
    (gs : List String) : List AnnRec :=
  gs.foldr
    (fun g acc =>
      (A.geneAnnotations g).filter
        (fun a => decide (a.evidenceCode ∈ evSet ∧ a.aspect = aspect)) ++ acc)
    []

/-- The per-term result of the enrichment loop body (obiGO.py lines 348-359),
given the already-intersected annotation set `s'`:
`allAnnotatedGenes = {ann.geneName}`; the two intersections are taken in the
cheaper direction; the entry is `([revGenesDict[g] for g in mappedGenes],
score.p_value(len(mappedGenes), len(reference), len(mappedReferenceGenes),
len(genes)), len(mappedReferenceGenes))`.  (`revGenesDict[g]` cannot raise:
`mappedGenes ⊆ genes`, the translator's key set, so the `getD` default is
never taken.) -/
def enrichEntry (pV : ℕ → ℕ → ℕ → ℕ → ℚ) (revD : List (String × String))
    (genesSet refSet : Finset String) (s' : Finset AnnRec) : List String × ℚ × ℕ :=
  let allAnnotatedGenes := s'.image (fun a => a.geneName)
  let mappedGenes :=
    if allAnnotatedGenes.card < genesSet.card then genesSet ∩ allAnnotatedGenes
    else allAnnotatedGenes ∩ genesSet
  let mappedReferenceGenes :=
    if allAnnotatedGenes.card < refSet.card then refSet ∩ allAnnotatedGenes
    else allAnnotatedGenes ∩ refSet
  ((strIter mappedGenes).map (fun g => (assocFind? g revD).getD g),
   pV mappedGenes.card refSet.card mappedReferenceGenes.card genesSet.card,
   mappedReferenceGenes.card)

/-- The `for i, term in enumerate(terms):` loop of `GetEnrichedTerms`
(obiGO.py lines 345-361).  `allAnnotations.intersection_update(
refAnnotations)` mutates the set object just returned by
`GetAllAnnotations(term)` — the same object the cache holds at key `term` —
so the cache entry is overwritten with the intersected set. -/
def Annotations.enrichLoop (A : Annotations) (pV : ℕ → ℕ → ℕ → ℕ → ℚ)
    (revD : List (String × String)) (genesSet refSet : Finset String)
    (refAnns : Finset AnnRec) (fuel : ℕ) (cache : AnnCache)
    (res : List (String × (List String × ℚ × ℕ))) :
    List String → Option (AnnCache × Except PyError (List (String × (List String × ℚ × ℕ))))
  | [] => some (cache, .ok res)
  | t :: ts =>
    match A.GetAllAnnotations fuel cache t with
    | none => none
    | some (c₁, .error e) => some (c₁, .error e)
    | some (c₁, .ok s) =>
      let s' := s ∩ refAnns
      let c₂ := assocSet t (.reduced s') c₁
      A.enrichLoop pV revD genesSet refSet refAnns fuel c₂
        (res ++ [(t, enrichEntry pV revD genesSet refSet s')]) ts

/-- `genes = set(revGenesDict.keys())` (obiGO.py line 331): the resolved
canonical query gene set. -/
def Annotations.enrichQuerySet (A : Annotations) (genes : List String) : Finset String :=
  ((A.GetGeneNamesTranslator genes).map Prod.fst).toFinset

/-- `annotationsDict.keys()` (obiGO.py lines 334-338): the distinct term ids
directly annotated to the resolved query genes under the evidence and aspect
filters. -/
def Annotations.enrichDirectTerms (A : Annotations) (evDict : Finset String)
    (genes : List String) (evidenceCodes : Option (List String)) (aspect : String) :
    List String :=
  ((A.filteredAnns (evSetOf evDict evidenceCodes) aspect
      (strIter (A.enrichQuerySet genes))).map (fun a => a.GOId)).dedup

/-- `refAnnotations` (obiGO.py line 335): the reference genes' annotations
under the evidence and aspect filters, as a set. -/
def Annotations.enrichRefAnns (A : Annotations) (evDict : Finset String)
    (reference : Option (List String)) (evidenceCodes : Option (List String))
    (aspect : String) : Finset AnnRec :=
  (A.filteredAnns (evSetOf evDict evidenceCodes) aspect
      (strIter (A.resolveReference reference))).toFinset

/-- `Annotations.GetEnrichedTerms` (obiGO.py lines 327-362).  Parameters
beyond the Python signature: `evDict` (key set of the external
`evidenceDict`), `pV` (the external `obiProb.Binomial().p_value`), `fuel`,
and the current `allAnnotations` cache (a fresh store has `cache = []`). -/
def Annotations.GetEnrichedTerms (A : Annotations) (evDict : Finset String)
    (pV : ℕ → ℕ → ℕ → ℕ → ℚ) (fuel : ℕ) (cache : AnnCache) (genes : List String)
    (reference : Option (List String)) (evidenceCodes : Option (List String))
    (aspect : String) :
    Option (AnnCache × Except PyError (List (String × (List String × ℚ × ℕ)))) :=
  let revD := A.GetGeneNamesTranslator genes
  let genesSet := A.enrichQuerySet genes
  let refSet := A.resolveReference reference
  let refAnns := A.enrichRefAnns evDict reference evidenceCodes aspect
  let directTerms := A.enrichDirectTerms evDict genes evidenceCodes aspect
  match A.ontology.ExtractSuperGraph directTerms with
  | none => none
  | some (.error e) => some (cache, .error e)
  | some (.ok terms) => A.enrichLoop pV revD genesSet refSet refAnns fuel cache [] terms

/-! ## FDR and the widget's post-pass (`OWGOEnrichmentAnalysis.Enrichment`,
OWGOEnrichmentAnalysis.py lines 606-617) -/

/-- Pair each element with its position. -/
def withIdx : ℕ → List ℚ → List (ℚ × ℕ)
  | _, [] => []
  | i, p :: rest => (p, i) :: withIdx (i + 1) rest

/-- Stable insertion by value (ties broken by original position, which makes
the sort stable and the order strict lexicographic). -/
def insertPair (x : ℚ × ℕ) : List (ℚ × ℕ) → List (ℚ × ℕ)
  | [] => [x]
  | y :: ys =>
    if x.1 < y.1 ∨ (x.1 = y.1 ∧ x.2 < y.2) then x :: y :: ys
    else y :: insertPair x ys

/-- Ascending stable sort of (p-value, original position) pairs. -/
def sortPairs : List (ℚ × ℕ) → List (ℚ × ℕ)
  | [] => []
  | x :: xs => insertPair x (sortPairs xs)

/-- `fdr_i = p_i * m / rank_i` with 1-based ranks down the sorted list,
keeping each original position. -/
def rawFDRs (m : ℕ) : ℕ → List (ℚ × ℕ) → List (ℚ × ℕ)
  | _, [] => []
  | i, (p, j) :: rest => (p * (m : ℚ) / ((i : ℚ) + 1), j) :: rawFDRs m (i + 1) rest

/-- Running minimum from the largest rank down: each value is replaced by the
minimum of itself and everything after it. -/
def suffixMins : List (ℚ × ℕ) → List (ℚ × ℕ)
  | [] => []
  | (v, j) :: rest =>
    match suffixMins rest with
    | [] => [(v, j)]
    | (w, k) :: tail => (min v w, j) :: (w, k) :: tail

/-- Modelled from the spec: `stats.FDR` is imported from
`orangecontrib.bio.utils.stats`, which is not among the sources; §4.5 of the
spec describes it as the standard step-up procedure — sort the p-values
ascending, assign `fdr_i = p_i * m / rank_i` (`m` = number of tests, 1-based
ascending ranks), enforce monotonicity by a running minimum from the largest
rank down — returning one adjusted value per input position (the widget zips
the result positionally with the term ids). -/
def FDR (ps : List ℚ) : List ℚ :=
  let m := ps.length
  let adj := suffixMins (rawFDRs m 0 (sortPairs (withIdx 0 ps)))
  (List.range m).map (fun j => (((adj.find? (fun q => decide (q.2 = j))).map Prod.fst).getD 0))

/-- The FDR post-pass of `OWGOEnrichmentAnalysis.Enrichment`
(OWGOEnrichmentAnalysis.py lines 611-617): collect the term ids and p-values
in mapping order, compute `stats.FDR(pvals)`, and extend each term's tuple
with its adjusted value (`terms[i] = tuple(list(terms[i]) + [fdr])`). -/
def enrichmentFDRPass (terms : List (String × (List String × ℚ × ℕ))) :
    List (String × (List String × ℚ × ℕ × ℚ)) :=
  let pvals := terms.map (fun e => e.2.2.1)
  List.zipWith (fun e fdr => (e.1, (e.2.1, e.2.2.1, e.2.2.2, fdr))) terms (FDR pvals)

/-! ## Specification-side definitions -/

/-- The transitive annotation closure as the spec states it: every record
whose term is `t` or a descendant of `t` (reachability along reverse
edges). -/
def annClosS (A : Annotations) (t : String) : Set AnnRec :=
  {a | a ∈ A.annotations ∧ ReachVia (nextDown A.ontology) t a.GOId}

/-- The enrichment tuple as the claim states it, computed from an explicit
descendant list `dts` of the term: the direct annotations of all descendants,
intersected with the reference annotations; query/reference genes among them;
`p_value(k = |mappedQuery|, N = |reference|, K = |mappedReference|,
n = |query|)`; and `|mappedReference|`. -/
def specTuple (pV : ℕ → ℕ → ℕ → ℕ → ℚ) (A : Annotations) (revD : List (String × String))
    (genesSet refSet : Finset String) (refAnns : Finset AnnRec) (dts : List String) :
    List String × ℚ × ℕ :=
  let allAnnT := (dts.foldr (fun d acc => A.termAnnotationsF d ∪ acc) ∅) ∩ refAnns
  let annGenes := allAnnT.image (fun a => a.geneName)
  let mq := genesSet ∩ annGenes
  let mr := refSet ∩ annGenes
  ((strIter mq).map (fun g => (assocFind? g revD).getD g),
   pV mq.card refSet.card mr.card genesSet.card,
   mr.card)

/-- The per-line tag/value extraction of `ParseStanza` in its intended
(single-`'!'`) case: the part before the first colon is the tag; the value is
what remains of the rest after cutting the comment (first `'!'`) and the
modifier block (first `'{'`), whitespace-trimmed. -/
def lineTagValue (line : List Char) : Option (List Char × List Char) :=
  match splitFirst ':' line with
  | none => none
  | some (tag, rest0) =>
    let rest := match splitFirst '!' rest0 with
      | some (a, _) => a
      | none => rest0
    let value := match splitFirst '{' rest with
      | some (v, _) => v
      | none => rest
    some (tag, trimValue value)

/-- The values a stanza contributes to one tag, in line order. -/
def taggedValues (lines : List (List Char)) (tag : List Char) : List (List Char) :=
  lines.foldr
    (fun l acc =>
      match lineTagValue l with
      | some (t, v) => if t = tag then v :: acc else acc
      | none => acc)
    []

/-- The value `ParseStanza` is expected to leave at one tag: multi-valued
tags accumulate every contributed value in line order, other tags keep the
last contributed value. -/
def expectedTag (mts : List (List Char)) (lines : List (List Char)) (tag : List Char) :
    Option TagVal :=
  let vs := taggedValues lines tag
  if tag ∈ mts then (if vs.isEmpty then none else some (.multi vs))
  else vs.getLast?.map .sing

/-- A line of `ParseStanza` is benign when the part after the first colon
holds at most one `'!'` (otherwise the unpacking `rest, comment =
rest.split("!")` raises `ValueError`). -/
def goodLine (line : List Char) : Bool :=
  match splitFirst ':' line with
  | none => true
  | some (_, rest) =>
    match splitFirst '!' rest with
    | none => true
    | some (_, after) => decide ('!' ∉ after)

/-- Bounds tying one `allAnnotations` cache entry to the true transitive
closure of its term: the entry never holds annotations outside the closure,
and holds at least every closure annotation that lies in `ref` (the
reference-annotation set a destructive `intersection_update` may have cut it
down to). -/
def GoodVal (A : Annotations) (ref : Finset AnnRec) (id : String) (v : CacheVal) : Prop :=
  ↑v.elems ⊆ annClosS A id ∧ annClosS A id ∩ ↑ref ⊆ ↑v.elems

/-- The cache invariant: every entry satisfies `GoodVal`. -/
def CacheInv (A : Annotations) (ref : Finset AnnRec) (cache : AnnCache) : Prop :=
  ∀ id v, assocFind? id cache = some v → GoodVal A ref id v

/-- The raw step-up values on a value list: `p_i * m / rank_i` with 1-based
ranks (the spec's §4.5 formula, on an already-sorted list). -/
def stepUpRaw (m : ℕ) : ℕ → List ℚ → List ℚ
  | _, [] => []
  | i, p :: rest => p * (m : ℚ) / ((i : ℚ) + 1) :: stepUpRaw m (i + 1) rest

/-- Ascending lexicographic order on (p-value, original position) pairs:
what a stable ascending sort by p-value produces. -/
def lexLe (a b : ℚ × ℕ) : Prop :=
  a.1 < b.1 ∨ (a.1 = b.1 ∧ a.2 ≤ b.2)

/-- The running minimum from the largest rank down, on plain values: each
entry becomes the minimum of itself and everything after it. -/
def sufMinList : List ℚ → List ℚ
  | [] => []
  | v :: rest =>
    match sufMinList rest with
    | [] => [v]
    | w :: t => min v w :: w :: t

/-! ## Concrete instances used by counterexamples and witnesses -/

/-- Annotation of gene `g1` to term `T`, aspect `P` (biological process). -/
def annP : AnnRec := ⟨0, "g1", "T", "IDA", "P"⟩

/-- Annotation of gene `g1` to term `T`, aspect `C` (cellular component). -/
def annC : AnnRec := ⟨1, "g1", "T", "IDA", "C"⟩

/-- A one-term ontology: `T` with no parents and no children. -/
def ontT : Ontology := ⟨[("T", ⟨[], []⟩)]⟩

/-- A store over `ontT` with the two annotations of `g1` to `T`. -/
def storeT : Annotations := ⟨ontT, [annP, annC], [("g1", "g1")], []⟩

/-- A two-term cyclic ontology: `A is_a B` and `B is_a A`, with the matching
reverse edges. -/
def ontCyc : Ontology :=
  ⟨[("A", ⟨[("is_a", "B")], [("is_a", "B")]⟩), ("B", ⟨[("is_a", "A")], [("is_a", "A")]⟩)]⟩

/-- A constant stand-in for the external significance test. -/
def pV0 : ℕ → ℕ → ℕ → ℕ → ℚ := fun _ _ _ _ => 0

/-- A one-element evidence dictionary. -/
def evD1 : Finset String := {"IDA"}

/-- The cache state after running a `P`-aspect enrichment of `["g1"]` on a
fresh `storeT`. -/
def cacheAfterEnrich : AnnCache :=
  match storeT.GetEnrichedTerms evD1 pV0 20 [] ["g1"] none none "P" with
  | some (c, _) => c
  | none => []

/-- What `GetAllAnnotations("T")` returns on that post-enrichment store. -/
def allAnnsAfterEnrich : Finset AnnRec :=
  match storeT.GetAllAnnotations 20 cacheAfterEnrich "T" with
  | some (_, .ok s) => s
  | _ => ∅

/-- The result mapping of that same enrichment run on the fresh `storeT`. -/
def enrichResT : List (String × (List String × ℚ × ℕ)) :=
  match storeT.GetEnrichedTerms evD1 pV0 20 [] ["g1"] none none "P" with
  | some (_, .ok r) => r
  | _ => []

/-- A two-term ontology before the reverse-edge pass: `A is_a B`, no reverse
edges yet. -/
def ontPreInvert : Ontology :=
  ⟨[("A", ⟨[("is_a", "B")], []⟩), ("B", ⟨[], []⟩)]⟩

/-- A concrete multiple-tag set: `is_a` accumulates. -/
def stanzaMts : List (List Char) := ["is_a".toList]

/-- A concrete stanza: one single-valued tag, two `is_a` values (one with a
comment). -/
def stanzaLines : List (List Char) :=
  ["id: GO:1".toList, "is_a: GO:2".toList, "is_a: GO:3 ! c".toList]

/-! # Theorems -/

/-! ## Association-list lemmas -/

theorem assocFind?_assocSet_self {α β : Type} [DecidableEq α] (k : α) (v : β)
    (l : List (α × β)) : assocFind? k (assocSet k v l) = some v := by
  induction l with
  | nil => simp [assocSet, assocFind?]
  | cons hd tl ih =>
    obtain ⟨k', v'⟩ := hd
    by_cases h : k' = k
    · subst h; simp [assocSet, assocFind?]
    · simp [assocSet, assocFind?, h, ih]

theorem assocFind?_assocSet_ne {α β : Type} [DecidableEq α] (k k₂ : α) (v : β)
    (l : List (α × β)) (hne : k₂ ≠ k) :
    assocFind? k₂ (assocSet k v l) = assocFind? k₂ l := by
  have hne' : ¬ k = k₂ := fun h => hne h.symm
  induction l with
  | nil => simp [assocSet, assocFind?, hne']
  | cons hd tl ih =>
    obtain ⟨k', v'⟩ := hd
    by_cases h : k' = k
    · subst h
      simp [assocSet, assocFind?, hne']
    · simp only [assocSet, if_neg h]
      by_cases h2 : k' = k₂
      · subst h2; simp [assocFind?]
      · simp [assocFind?, h2, ih]

theorem assocFind?_some_mem {α β : Type} [DecidableEq α] (k : α) (v : β)
    (l : List (α × β)) (h : assocFind? k l = some v) : (k, v) ∈ l := by
  induction l with
  | nil => simp [assocFind?] at h
  | cons hd tl ih =>
    obtain ⟨k', v'⟩ := hd
    by_cases he : k' = k
    · subst he
      rw [assocFind?, if_pos rfl] at h
      injection h with hv
      subst hv
      exact List.mem_cons_self _ _
    · rw [assocFind?, if_neg he] at h
      exact List.mem_cons_of_mem _ (ih h)

theorem assocFind?_isSome_of_mem_keys {α β : Type} [DecidableEq α] (k : α)
    (l : List (α × β)) (h : k ∈ l.map Prod.fst) : ∃ v, assocFind? k l = some v := by
  induction l with
  | nil => simp at h
  | cons hd tl ih =>
    obtain ⟨k', v'⟩ := hd
    by_cases he : k' = k
    · subst he; exact ⟨v', by simp [assocFind?]⟩
    · simp only [List.map_cons, List.mem_cons] at h
      rcases h with h | h
      · exact absurd h.symm he
      · obtain ⟨v, hv⟩ := ih h
        exact ⟨v, by simp [assocFind?, he, hv]⟩

theorem mem_keys_of_assocFind?_some {α β : Type} [DecidableEq α] {k : α} {v : β}
    {l : List (α × β)} (h : assocFind? k l = some v) : k ∈ l.map Prod.fst := by
  have := assocFind?_some_mem k v l h
  exact List.mem_map.mpr ⟨(k, v), this, rfl⟩

theorem mem_of_assocFind?_some_nodup {α β : Type} [DecidableEq α] {k : α} {v : β}
    {l : List (α × β)} (hnd : (l.map Prod.fst).Nodup) (h : (k, v) ∈ l) :
    assocFind? k l = some v := by
  induction l with
  | nil => simp at h
  | cons hd tl ih =>
    obtain ⟨k', v'⟩ := hd
    rw [List.map_cons, List.nodup_cons] at hnd
    rcases List.mem_cons.mp h with h | h
    · injection h with h1 h2
      subst h1
      subst h2
      rw [assocFind?, if_pos rfl]
    · have hk : ¬ k' = k := by
        rintro rfl
        exact hnd.1 (List.mem_map.mpr ⟨(k', v), h, rfl⟩)
      rw [assocFind?, if_neg hk]
      exact ih hnd.2 h

/-! ## C5, C10, C9, C1, C3 -/

/-- C5: claimed — `GetTermDepth(t)` returns 1 for parentless terms and
`1 + min` of the parents' depths, memoized.  In fact every call raises
`NameError`, because the function body reads the unbound name `cache`
(its parameter is `cache_`); here evaluated on a parentless term, where the
claim expects the depth 1. -/
theorem GetTermDepth_name_error :
    ontT.GetTermDepth "T" = .error (.nameError "cache") := rfl

/-- C10: with `reference` absent (`None`) or an empty collection, the
reference population silently defaults to the store's entire canonical
gene-name set, and the enrichment call behaves exactly as if that full set
had been passed (the statistics are computed against it). -/
theorem reference_defaults_to_geneNames (A : Annotations) (evDict : Finset String)
    (pV : ℕ → ℕ → ℕ → ℕ → ℚ) (fuel : ℕ) (cache : AnnCache) (genes : List String)
    (evCodes : Option (List String)) (aspect : String) :
    A.resolveReference none = A.geneNames ∧
    A.resolveReference (some []) = A.geneNames ∧
    A.GetEnrichedTerms evDict pV fuel cache genes none evCodes aspect =
      A.GetEnrichedTerms evDict pV fuel cache genes (some []) evCodes aspect :=
  ⟨rfl, rfl, rfl⟩

/-- C9: looking up a term id absent from the graph — via `Ontology.__getitem__`
or via `GetAllAnnotations` — raises a `KeyError` (a NotFound-class error,
never a sentinel), and the failed call leaves the store's cache exactly as it
was, so every present id keeps returning the same results afterwards. -/
theorem absent_id_not_found (A : Annotations) (id : String) (fuel : ℕ) (cache : AnnCache)
    (habs : A.ontology.find? id = none) (hcache : assocFind? id cache = none)
    (hfuel : 0 < fuel) :
    A.ontology.getItem id = .error (.keyError id) ∧
    A.GetAllAnnotations fuel cache id = some (cache, .error (.keyError id)) := by
  constructor
  · simp [Ontology.getItem, habs]
  · obtain ⟨f, rfl⟩ : ∃ f, fuel = f + 1 := ⟨fuel - 1, by omega⟩
    simp [Annotations.GetAllAnnotations, Annotations.CollectAnnotations, hcache, habs]

theorem absent_id_not_found_witness :
    storeT.ontology.getItem "X" = .error (.keyError "X") ∧
    storeT.GetAllAnnotations 1 [] "X" = some ([], .error (.keyError "X")) :=
  absent_id_not_found storeT "X" 1 [] (by decide) rfl (by decide)

/-- C1: refuted as an invariant across public operations — after a single
`GetEnrichedTerms` call on a fresh `storeT` (gene `g1` annotated to term `T`
once with aspect `P` and once with aspect `C`; query `["g1"]`, aspect `"P"`),
the cached closure of `T` has been destructively intersected with the
reference annotations, and `GetAllAnnotations("T")` now returns `{annP}`,
which has lost the direct annotation `annC` of `T`: it is no longer a
superset of `termAnnotations["T"] = {annP, annC}`. -/
theorem getAllAnnotations_after_enrichment_drops_direct :
    storeT.termAnnotationsF "T" = {annP, annC} ∧
    allAnnsAfterEnrich = {annP} ∧
    ¬ storeT.termAnnotationsF "T" ⊆ allAnnsAfterEnrich := by
  refine ⟨by decide, by decide, by decide⟩

/-- C3: refuted — `GetEnrichedTerms` does not fail when alias resolution
empties the query gene set: on `storeT` with the unresolvable query
`["nosuch"]` it returns an (empty) result mapping and no error of any kind,
while the claim demands an InsufficientInput-class failure with no result
mapping. -/
theorem GetEnrichedTerms_empty_query_no_failure :
    storeT.GetEnrichedTerms evD1 pV0 5 [] ["nosuch"] none none "P" =
      some ([], .ok []) := rfl

/-- C3 (amended): `GetEnrichedTerms` does not itself fail on empty alias
resolution.  When resolution leaves the canonical query set empty, it
returns an empty result mapping (no error, cache untouched); and the
canonical reference set can never end up empty, because an absent or empty
reference silently defaults to the store's full gene-name set — the
"no valid reference/query set" guard lives in the presentation layer, not
in this call. -/
theorem GetEnrichedTerms_empty_resolution_behavior
    (A : Annotations) (evDict : Finset String) (pV : ℕ → ℕ → ℕ → ℕ → ℚ) (fuel : ℕ)
    (cache : AnnCache) (genes : List String) (reference : Option (List String))
    (evCodes : Option (List String)) (aspect : String)
    (h : A.GetGeneNamesTranslator genes = []) :
    A.GetEnrichedTerms evDict pV fuel cache genes reference evCodes aspect =
      some (cache, .ok []) ∧
    A.resolveReference none = A.geneNames ∧
    A.resolveReference (some []) = A.geneNames := by
  refine ⟨?_, rfl, rfl⟩
  have hq : A.enrichQuerySet genes = ∅ := by
    simp [Annotations.enrichQuerySet, h]
  have hdt : A.enrichDirectTerms evDict genes evCodes aspect = [] := by
    simp [Annotations.enrichDirectTerms, hq, Annotations.filteredAnns,
      show strIter ∅ = [] from rfl]
  have hsg : A.ontology.ExtractSuperGraph ([] : List String) = some (.ok []) := by
    simp [Ontology.ExtractSuperGraph, Ontology.extractFuel, extractLoop]
  simp only [Annotations.GetEnrichedTerms, hdt, hsg]
  simp [Annotations.enrichLoop]

theorem GetEnrichedTerms_empty_resolution_behavior_witness :
    storeT.GetEnrichedTerms evD1 pV0 7 [] ["nosuch"] (some ["g1"]) none "C" =
      some ([], .ok []) ∧
    storeT.resolveReference none = storeT.geneNames ∧
    storeT.resolveReference (some []) = storeT.geneNames :=
  GetEnrichedTerms_empty_resolution_behavior storeT evD1 pV0 7 [] ["nosuch"]
    (some ["g1"]) none "C" rfl

/-! ## C6: the reverse-edge pass builds the exact transpose -/

theorem updateAt_none_iff (k : String) (f : TermData → TermData)
    (ts : List (String × TermData)) :
    updateAt k f ts = none ↔ k ∉ ts.map Prod.fst := by
  induction ts with
  | nil => simp [updateAt]
  | cons hd tl ih =>
    obtain ⟨k', v⟩ := hd
    by_cases h : k' = k
    · subst h; simp [updateAt]
    · rw [updateAt, if_neg h, Option.map_eq_none', ih]
      simp only [List.map_cons, List.mem_cons]
      constructor
      · intro h1 hc
        rcases hc with hc | hc
        · exact h hc.symm
        · exact h1 hc
      · intro h1 hc
        exact h1 (Or.inr hc)

theorem updateAt_keys (k : String) (f : TermData → TermData)
    (ts ts' : List (String × TermData)) (h : updateAt k f ts = some ts') :
    ts'.map Prod.fst = ts.map Prod.fst := by
  induction ts generalizing ts' with
  | nil => simp [updateAt] at h
  | cons hd tl ih =>
    obtain ⟨k', v⟩ := hd
    by_cases he : k' = k
    · subst he
      rw [updateAt, if_pos rfl] at h
      injection h with h
      subst h
      simp
    · rw [updateAt, if_neg he] at h
      cases hx : updateAt k f tl with
      | none => rw [hx] at h; simp at h
      | some tl' =>
        rw [hx] at h
        injection h with h
        subst h
        simp [ih tl' hx]

theorem updateAt_find_self (k : String) (f : TermData → TermData)
    (ts ts' : List (String × TermData)) (h : updateAt k f ts = some ts') :
    assocFind? k ts' = (assocFind? k ts).map f := by
  induction ts generalizing ts' with
  | nil => simp [updateAt] at h
  | cons hd tl ih =>
    obtain ⟨k', v⟩ := hd
    by_cases he : k' = k
    · subst he
      rw [updateAt, if_pos rfl] at h
      injection h with h
      subst h
      simp [assocFind?]
    · rw [updateAt, if_neg he] at h
      cases hx : updateAt k f tl with
      | none => rw [hx] at h; simp at h
      | some tl' =>
        rw [hx] at h
        injection h with h
        subst h
        simp [assocFind?, he, ih tl' hx]

theorem updateAt_find_ne (k k₂ : String) (f : TermData → TermData)
    (ts ts' : List (String × TermData)) (h : updateAt k f ts = some ts')
    (hne : k₂ ≠ k) : assocFind? k₂ ts' = assocFind? k₂ ts := by
  induction ts generalizing ts' with
  | nil => simp [updateAt] at h
  | cons hd tl ih =>
    obtain ⟨k', v⟩ := hd
    by_cases he : k' = k
    · subst he
      rw [updateAt, if_pos rfl] at h
      injection h with h
      subst h
      have hne' : ¬ k' = k₂ := fun hc => hne hc.symm
      simp [assocFind?, hne']
    · rw [updateAt, if_neg he] at h
      cases hx : updateAt k f tl with
      | none => rw [hx] at h; simp at h
      | some tl' =>
        rw [hx] at h
        injection h with h
        subst h
        by_cases h2 : k' = k₂
        · subst h2; simp [assocFind?]
        · simp [assocFind?, h2, ih tl' hx]

theorem mem_addRelatedTo (a b ty id : String) (td : TermData) :
    (a, b) ∈ (addRelatedTo ty id td).relatedTo ↔
      (a, b) ∈ td.relatedTo ∨ (a = ty ∧ b = id) := by
  unfold addRelatedTo
  by_cases h : (ty, id) ∈ td.relatedTo
  · simp only [if_pos h]
    constructor
    · exact Or.inl
    · rintro (hm | ⟨rfl, rfl⟩)
      · exact hm
      · exact h
  · simp only [if_neg h, List.mem_append, List.mem_singleton, Prod.mk.injEq]

theorem mem_edgeTriples (ty p id : String) (ts : List (String × TermData)) :
    (ty, p, id) ∈ edgeTriples ts ↔ ∃ td, (id, td) ∈ ts ∧ (ty, p) ∈ td.related := by
  induction ts with
  | nil => simp [edgeTriples]
  | cons hd tl ih =>
    obtain ⟨id', td'⟩ := hd
    show (ty, p, id) ∈ td'.related.map (fun e => (e.1, e.2, id')) ++ edgeTriples tl ↔ _
    rw [List.mem_append, ih]
    constructor
    · rintro (hm | ⟨td, hmem, hrel⟩)
      · obtain ⟨e, he, heq⟩ := List.mem_map.mp hm
        obtain ⟨h1, h2, h3⟩ : e.1 = ty ∧ e.2 = p ∧ id' = id := by
          injection heq with ha hb
          injection hb with hb hc
          exact ⟨ha, hb, hc⟩
        subst h3
        exact ⟨td', List.mem_cons_self _ _, by
          have : e = (ty, p) := Prod.ext h1 h2
          exact this ▸ he⟩
      · exact ⟨td, List.mem_cons_of_mem _ hmem, hrel⟩
    · rintro ⟨td, hmem, hrel⟩
      rcases List.mem_cons.mp hmem with heq | hmem
      · injection heq with h1 h2
        subst h1
        subst h2
        exact Or.inl (List.mem_map.mpr ⟨(ty, p), hrel, rfl⟩)
      · exact Or.inr ⟨td, hmem, hrel⟩

theorem invertFold_spec (tris : List (String × String × String)) :
    ∀ acc : List (String × TermData),
      (∀ tri ∈ tris, tri.2.1 ∈ acc.map Prod.fst) →
      ∃ acc', (tris.foldlM
          (fun acc tri =>
            match updateAt tri.2.1 (addRelatedTo tri.1 tri.2.2) acc with
            | some acc' => Except.ok acc'
            | none => Except.error (PyError.keyError tri.2.1)) acc
            : Except PyError (List (String × TermData))) = .ok acc' ∧
        acc'.map Prod.fst = acc.map Prod.fst ∧
        (∀ k, (assocFind? k acc').map TermData.related =
          (assocFind? k acc).map TermData.related) ∧
        (∀ k td', assocFind? k acc' = some td' → ∀ ty id,
          ((ty, id) ∈ td'.relatedTo ↔
            (∃ td, assocFind? k acc = some td ∧ (ty, id) ∈ td.relatedTo) ∨
              (ty, k, id) ∈ tris)) := by
  induction tris with
  | nil =>
    intro acc _
    refine ⟨acc, rfl, rfl, fun k => rfl, fun k td' hf ty id => ?_⟩
    simp only [List.not_mem_nil, or_false]
    exact ⟨fun hm => ⟨td', hf, hm⟩, fun ⟨td, htd, hm⟩ => by
      rw [hf] at htd; injection htd with htd; subst htd; exact hm⟩
  | cons tri tris ih =>
    intro acc hpres
    obtain ⟨ty₀, p₀, id₀⟩ := tri
    have hp₀ : p₀ ∈ acc.map Prod.fst := hpres _ (List.mem_cons_self _ _)
    have hupd : updateAt p₀ (addRelatedTo ty₀ id₀) acc ≠ none := by
      rw [Ne, updateAt_none_iff]
      exact fun hc => hc hp₀
    obtain ⟨acc₁, hacc₁⟩ : ∃ a, updateAt p₀ (addRelatedTo ty₀ id₀) acc = some a := by
      cases hx : updateAt p₀ (addRelatedTo ty₀ id₀) acc
      · exact absurd hx hupd
      · exact ⟨_, rfl⟩
    have hkeys₁ : acc₁.map Prod.fst = acc.map Prod.fst := updateAt_keys _ _ _ _ hacc₁
    obtain ⟨acc', hfold, hkeys, hrel, hchar⟩ :=
      ih acc₁ (fun tri htri => hkeys₁ ▸ hpres _ (List.mem_cons_of_mem _ htri))
    refine ⟨acc', ?_, hkeys.trans hkeys₁, ?_, ?_⟩
    · rw [List.foldlM_cons, hacc₁]
      exact hfold
    · intro k
      rw [hrel k]
      by_cases hk : k = p₀
      · subst hk
        rw [updateAt_find_self _ _ _ _ hacc₁]
        cases assocFind? k acc <;> rfl
      · rw [updateAt_find_ne _ _ _ _ _ hacc₁ hk]
    · intro k td' hf ty id
      rw [hchar k td' hf ty id]
      by_cases hk : k = p₀
      · subst hk
        obtain ⟨v₀, hv₀⟩ := assocFind?_isSome_of_mem_keys _ _ hp₀
        have hfind₁ : assocFind? k acc₁ = some (addRelatedTo ty₀ id₀ v₀) := by
          rw [updateAt_find_self _ _ _ _ hacc₁, hv₀]
          rfl
        constructor
        · rintro (⟨td, htd, hm⟩ | hm)
          · rw [hfind₁] at htd
            injection htd with htd
            subst htd
            rcases (mem_addRelatedTo _ _ _ _ _).mp hm with hm | ⟨rfl, rfl⟩
            · exact Or.inl ⟨v₀, hv₀, hm⟩
            · exact Or.inr (List.mem_cons_self _ _)
          · exact Or.inr (List.mem_cons_of_mem _ hm)
        · rintro (⟨td, htd, hm⟩ | hm)
          · rw [hv₀] at htd
            injection htd with htd
            subst htd
            exact Or.inl ⟨_, hfind₁, (mem_addRelatedTo _ _ _ _ _).mpr (Or.inl hm)⟩
          · rcases List.mem_cons.mp hm with heq | hm
            · injection heq with h1 h2
              injection h2 with h2 h3
              subst h1
              subst h3
              exact Or.inl ⟨_, hfind₁, (mem_addRelatedTo _ _ _ _ _).mpr (Or.inr ⟨rfl, rfl⟩)⟩
            · exact Or.inr hm
      · have hfind₁ : assocFind? k acc₁ = assocFind? k acc :=
          updateAt_find_ne _ _ _ _ _ hacc₁ hk
        rw [hfind₁]
        constructor
        · rintro (hbase | hm)
          · exact Or.inl hbase
          · exact Or.inr (List.mem_cons_of_mem _ hm)
        · rintro (hbase | hm)
          · exact Or.inl hbase
          · rcases List.mem_cons.mp hm with heq | hm
            · exfalso
              injection heq with h1 h2
              injection h2 with h2 h3
              exact hk h2
            · exact Or.inr hm

/-- C6: after the reverse-edge pass at the end of `ParseFile` (run on freshly
parsed terms, whose `relatedTo` sets start empty, and on input whose relation
edges all target term ids present in the graph), the reverse-edge sets are
exactly the transpose of the forward-edge sets: `(type, parent)` is in
`term.related` if and only if `(type, term.id)` is in
`terms[parent].relatedTo`; keys and forward edges are unchanged. -/
theorem parse_relatedTo_transpose (O : Ontology) (ts' : List (String × TermData))
    (hnd : (O.terms.map Prod.fst).Nodup)
    (hrt : ∀ p ∈ O.terms, p.2.relatedTo = ([] : List (String × String)))
    (hclosed : ∀ p ∈ O.terms, ∀ e ∈ p.2.related, e.2 ∈ O.terms.map Prod.fst)
    (h : invertEdges O.terms = .ok ts') :
    ts'.map Prod.fst = O.terms.map Prod.fst ∧
    (∀ k, (assocFind? k ts').map TermData.related =
      (assocFind? k O.terms).map TermData.related) ∧
    (∀ ty parent id,
      (∃ td, assocFind? id O.terms = some td ∧ (ty, parent) ∈ td.related) ↔
      (∃ td', assocFind? parent ts' = some td' ∧ (ty, id) ∈ td'.relatedTo)) := by
  have hpres : ∀ tri ∈ edgeTriples O.terms, tri.2.1 ∈ O.terms.map Prod.fst := by
    rintro ⟨ty, p, id⟩ htri
    obtain ⟨td, hmem, hrel⟩ := (mem_edgeTriples _ _ _ _).mp htri
    exact hclosed _ hmem _ hrel
  obtain ⟨acc', hfold, hkeys, hrel, hchar⟩ := invertFold_spec (edgeTriples O.terms) O.terms hpres
  have hacc : acc' = ts' := by
    have h2 : invertEdges O.terms = .ok acc' := hfold
    rw [h] at h2
    injection h2 with h2
    exact h2.symm
  rw [hacc] at hkeys hrel hchar
  refine ⟨hkeys, hrel, ?_⟩
  intro ty parent id
  constructor
  · rintro ⟨td, hfind, hmem⟩
    have htri : (ty, parent, id) ∈ edgeTriples O.terms :=
      (mem_edgeTriples _ _ _ _).mpr ⟨td, assocFind?_some_mem _ _ _ hfind, hmem⟩
    have hpk : parent ∈ ts'.map Prod.fst := hkeys ▸ hpres _ htri
    obtain ⟨td', htd'⟩ := assocFind?_isSome_of_mem_keys _ _ hpk
    exact ⟨td', htd', (hchar _ _ htd' ty id).mpr (Or.inr htri)⟩
  · rintro ⟨td', hfind', hmem'⟩
    rcases (hchar _ _ hfind' ty id).mp hmem' with ⟨td, htd, hm⟩ | htri
    · have := hrt _ (assocFind?_some_mem _ _ _ htd)
      rw [this] at hm
      simp at hm
    · obtain ⟨td, hmem, hrel2⟩ := (mem_edgeTriples _ _ _ _).mp htri
      exact ⟨td, mem_of_assocFind?_some_nodup hnd hmem, hrel2⟩

theorem parse_relatedTo_transpose_witness :
    ([("A", ⟨[("is_a", "B")], []⟩), ("B", ⟨[], [("is_a", "A")]⟩)] :
        List (String × TermData)).map Prod.fst = ontPreInvert.terms.map Prod.fst ∧
    (∀ k, (assocFind? k ([("A", ⟨[("is_a", "B")], []⟩),
        ("B", ⟨[], [("is_a", "A")]⟩)] : List (String × TermData))).map TermData.related =
      (assocFind? k ontPreInvert.terms).map TermData.related) ∧
    (∀ ty parent id,
      (∃ td, assocFind? id ontPreInvert.terms = some td ∧ (ty, parent) ∈ td.related) ↔
      (∃ td', assocFind? parent ([("A", ⟨[("is_a", "B")], []⟩),
        ("B", ⟨[], [("is_a", "A")]⟩)] : List (String × TermData)) = some td' ∧
        (ty, id) ∈ td'.relatedTo)) :=
  parse_relatedTo_transpose ontPreInvert _ (by decide) (by decide) (by decide) rfl

/-! ## C4: the closure loops terminate and compute reachability -/

theorem extractLoop_ok_characterize (next : String → Option (List String))
    (S₀ : List String) :
    ∀ (fuel : ℕ) (visited queue vs : List String),
      queue.Nodup →
      (∀ q ∈ queue, q ∉ visited) →
      (∀ v ∈ visited, ReachFromVia next S₀ v) →
      (∀ q ∈ queue, ReachFromVia next S₀ q) →
      (∀ v ∈ visited, ∀ y, stepVia next v y → y ∈ visited ∨ y ∈ queue) →
      (∀ s ∈ S₀, s ∈ visited ∨ s ∈ queue) →
      extractLoop next fuel visited queue = some (.ok vs) →
      ∀ x, x ∈ vs ↔ ReachFromVia next S₀ x := by
  intro fuel
  induction fuel with
  | zero =>
    intro visited queue vs _ _ _ _ _ _ h
    simp [extractLoop] at h
  | succ fuel ih =>
    intro visited queue vs hnd hdisj hv hq hcl hseed h
    cases queue with
    | nil =>
      simp only [extractLoop, Option.some.injEq] at h
      have hvis : visited = vs := by
        injection h with h
      subst hvis
      intro x
      constructor
      · exact hv x
      · rintro ⟨s, hs, hr⟩
        have hsv : s ∈ visited := by
          rcases hseed s hs with h1 | h1
          · exact h1
          · simp at h1
        clear hseed hq hnd hdisj h
        induction hr with
        | refl => exact hsv
        | tail _ hstep ihr =>
          rcases hcl _ ihr _ hstep with h1 | h1
          · exact h1
          · simp at h1
    | cons t rest =>
      have ht : t ∉ visited := hdisj t (List.mem_cons_self _ _)
      simp only [extractLoop, if_neg ht] at h
      cases hnext : next t with
      | none => rw [hnext] at h; simp at h
      | some ns =>
        rw [hnext] at h
        dsimp only at h
        set fresh := (ns.filter
          (fun p => decide (p ∉ visited ++ [t] ∧ p ∉ rest))).dedup with hfresh
        have hreacht : ReachFromVia next S₀ t := hq t (List.mem_cons_self _ _)
        have hfreshMem : ∀ y, y ∈ fresh ↔
            (y ∈ ns ∧ y ∉ visited ++ [t] ∧ y ∉ rest) := by
          intro y
          rw [hfresh, List.mem_dedup, List.mem_filter]
          simp
        have hndr : rest.Nodup := (List.nodup_cons.mp hnd).2
        have htr : t ∉ rest := (List.nodup_cons.mp hnd).1
        refine ih (visited ++ [t]) (rest ++ fresh) vs ?_ ?_ ?_ ?_ ?_ ?_ h
        · refine List.Nodup.append hndr (List.nodup_dedup _) ?_
          intro a ha hfa
          exact ((hfreshMem a).mp hfa).2.2 ha
        · intro q hqm
          rcases List.mem_append.mp hqm with hqm | hqm
          · intro hc
            rcases List.mem_append.mp hc with hc | hc
            · exact hdisj q (List.mem_cons_of_mem _ hqm) hc
            · simp only [List.mem_singleton] at hc
              exact htr (hc ▸ hqm)
          · exact ((hfreshMem q).mp hqm).2.1
        · intro v hvm
          rcases List.mem_append.mp hvm with hvm | hvm
          · exact hv v hvm
          · simp only [List.mem_singleton] at hvm
            exact hvm ▸ hreacht
        · intro q hqm
          rcases List.mem_append.mp hqm with hqm | hqm
          · exact hq q (List.mem_cons_of_mem _ hqm)
          · obtain ⟨s, hs, hr⟩ := hreacht
            exact ⟨s, hs, hr.tail ⟨ns, hnext, ((hfreshMem q).mp hqm).1⟩⟩
        · intro v hvm y hstep
          rcases List.mem_append.mp hvm with hvm | hvm
          · rcases hcl v hvm y hstep with h1 | h1
            · exact Or.inl (List.mem_append_left _ h1)
            · rcases List.mem_cons.mp h1 with h1 | h1
              · exact Or.inl (List.mem_append_right _ (by simp [h1]))
              · exact Or.inr (List.mem_append_left _ h1)
          · simp only [List.mem_singleton] at hvm
            rw [hvm] at hstep
            obtain ⟨ns', hns', hy⟩ := hstep
            rw [hnext] at hns'
            injection hns' with hns'
            subst hns'
            by_cases h1 : y ∈ visited ++ [t]
            · exact Or.inl h1
            · by_cases h2 : y ∈ rest
              · exact Or.inr (List.mem_append_left _ h2)
              · exact Or.inr (List.mem_append_right _
                  ((hfreshMem y).mpr ⟨hy, h1, h2⟩))
        · intro s hs
          rcases hseed s hs with h1 | h1
          · exact Or.inl (List.mem_append_left _ h1)
          · rcases List.mem_cons.mp h1 with h1 | h1
            · exact Or.inl (List.mem_append_right _ (by simp [h1]))
            · exact Or.inr (List.mem_append_left _ h1)

theorem extractLoop_runs (next : String → Option (List String)) (D : Finset String)
    (hdom : ∀ x, (next x).isSome → x ∈ D) (S₀ : List String)
    (hpres : ∀ x, ReachFromVia next S₀ x → (next x).isSome) :
    ∀ (fuel : ℕ) (visited queue : List String),
      queue.Nodup →
      (∀ q ∈ queue, q ∉ visited) →
      (∀ q ∈ queue, ReachFromVia next S₀ q) →
      (D.filter (fun i => i ∉ visited ∧ i ∉ queue)).card + queue.length < fuel →
      ∃ vs, extractLoop next fuel visited queue = some (.ok vs) := by
  intro fuel
  induction fuel with
  | zero => intro visited queue _ _ _ hm; omega
  | succ fuel ih =>
    intro visited queue hnd hdisj hq hmeas
    cases queue with
    | nil => exact ⟨visited, by simp [extractLoop]⟩
    | cons t rest =>
      have ht : t ∉ visited := hdisj t (List.mem_cons_self _ _)
      have hreacht : ReachFromVia next S₀ t := hq t (List.mem_cons_self _ _)
      obtain ⟨ns, hnext⟩ : ∃ ns, next t = some ns := by
        have := hpres t hreacht
        cases hx : next t
        · rw [hx] at this; simp at this
        · exact ⟨_, rfl⟩
      set fresh := (ns.filter
        (fun p => decide (p ∉ visited ++ [t] ∧ p ∉ rest))).dedup with hfresh
      have hfreshMem : ∀ y, y ∈ fresh ↔
          (y ∈ ns ∧ y ∉ visited ++ [t] ∧ y ∉ rest) := by
        intro y
        rw [hfresh, List.mem_dedup, List.mem_filter]
        simp
      have hndr : rest.Nodup := (List.nodup_cons.mp hnd).2
      have htr : t ∉ rest := (List.nodup_cons.mp hnd).1
      have hndf : fresh.Nodup := List.nodup_dedup _
      have hfreshReach : ∀ y ∈ fresh, ReachFromVia next S₀ y := by
        intro y hy
        obtain ⟨s, hs, hr⟩ := hreacht
        exact ⟨s, hs, hr.tail ⟨ns, hnext, ((hfreshMem y).mp hy).1⟩⟩
      -- the potential decreases by exactly one
      have htD : t ∈ D := hdom t (hpres t hreacht)
      have hsub : fresh.toFinset ⊆ D.filter (fun i => i ∉ visited ∧ i ∉ t :: rest) := by
        intro y hy
        rw [List.mem_toFinset] at hy
        obtain ⟨hyns, hyv, hyr⟩ := (hfreshMem y).mp hy
        rw [Finset.mem_filter]
        refine ⟨hdom y (hpres y (hfreshReach y hy)), ?_, ?_⟩
        · intro hc; exact hyv (List.mem_append_left _ hc)
        · intro hc
          rcases List.mem_cons.mp hc with hc | hc
          · exact hyv (List.mem_append_right _ (by simp [hc]))
          · exact hyr hc
      have hKK : D.filter (fun i => i ∉ visited ++ [t] ∧ i ∉ rest ++ fresh) =
          (D.filter (fun i => i ∉ visited ∧ i ∉ t :: rest)) \ fresh.toFinset := by
        ext x
        simp only [Finset.mem_filter, Finset.mem_sdiff, List.mem_toFinset]
        constructor
        · rintro ⟨hxD, hxv, hxq⟩
          have hxf : x ∉ fresh := fun hc => hxq (List.mem_append_right _ hc)
          refine ⟨⟨hxD, fun hc => hxv (List.mem_append_left _ hc), fun hc => ?_⟩, hxf⟩
          rcases List.mem_cons.mp hc with hc | hc
          · exact hxv (List.mem_append_right _ (by simp [hc]))
          · exact hxq (List.mem_append_left _ hc)
        · rintro ⟨⟨hxD, hxv, hxq⟩, hxf⟩
          refine ⟨hxD, fun hc => ?_, fun hc => ?_⟩
          · rcases List.mem_append.mp hc with hc | hc
            · exact hxv hc
            · simp only [List.mem_singleton] at hc
              exact hxq (by simp [hc])
          · rcases List.mem_append.mp hc with hc | hc
            · exact hxq (List.mem_cons_of_mem _ hc)
            · exact hxf hc
      have hcard : (D.filter (fun i => i ∉ visited ++ [t] ∧ i ∉ rest ++ fresh)).card =
          (D.filter (fun i => i ∉ visited ∧ i ∉ t :: rest)).card - fresh.length := by
        rw [hKK, Finset.card_sdiff hsub, List.toFinset_card_of_nodup hndf]
      have hle : fresh.length ≤ (D.filter (fun i => i ∉ visited ∧ i ∉ t :: rest)).card := by
        calc fresh.length = fresh.toFinset.card := (List.toFinset_card_of_nodup hndf).symm
        _ ≤ _ := Finset.card_le_card hsub
      obtain ⟨vs, hvs⟩ := ih (visited ++ [t]) (rest ++ fresh)
        (List.Nodup.append hndr hndf (fun a ha hfa => ((hfreshMem a).mp hfa).2.2 ha))
        (by
          intro q hqm
          rcases List.mem_append.mp hqm with hqm | hqm
          · intro hc
            rcases List.mem_append.mp hc with hc | hc
            · exact hdisj q (List.mem_cons_of_mem _ hqm) hc
            · simp only [List.mem_singleton] at hc
              exact htr (hc ▸ hqm)
          · exact ((hfreshMem q).mp hqm).2.1)
        (by
          intro q hqm
          rcases List.mem_append.mp hqm with hqm | hqm
          · exact hq q (List.mem_cons_of_mem _ hqm)
          · exact hfreshReach q hqm)
        (by
          rw [List.length_append, hcard]
          simp only [List.length_cons] at hmeas
          omega)
      refine ⟨vs, ?_⟩
      simp only [extractLoop, if_neg ht]
      rw [hnext]
      exact hvs

/-- C4: for every finite ontology graph — cyclic relation edges included —
and every seed set whose members and reachable successors are all present in
the graph, `ExtractSuperGraph` and `ExtractSubGraph` terminate successfully
(the computed fuel, one more than the initial value of the strictly
decreasing potential `|keys \ (visited ∪ queue)| + |queue|`, is never
exhausted, because an id is re-enqueued only if not already visited), and
they return exactly the set of terms reachable from the seeds along forward
(respectively reverse) edges. -/
theorem extract_graphs_terminate (O : Ontology) (seeds : List String)
    (hup : ∀ x, ReachFromVia (nextUp O) seeds x → (nextUp O x).isSome)
    (hdown : ∀ x, ReachFromVia (nextDown O) seeds x → (nextDown O x).isSome) :
    (∃ vs, O.ExtractSuperGraph seeds = some (.ok vs) ∧
      ∀ x, x ∈ vs ↔ ReachFromVia (nextUp O) seeds x) ∧
    (∃ vs, O.ExtractSubGraph seeds = some (.ok vs) ∧
      ∀ x, x ∈ vs ↔ ReachFromVia (nextDown O) seeds x) := by
  have key : ∀ (next : String → Option (List String)),
      (∀ x, (next x).isSome → x ∈ (O.terms.map Prod.fst).toFinset) →
      (∀ x, ReachFromVia next seeds x → (next x).isSome) →
      ∃ vs, extractLoop next (O.extractFuel seeds) [] seeds.dedup = some (.ok vs) ∧
        ∀ x, x ∈ vs ↔ ReachFromVia next seeds x := by
    intro next hdom hpres
    have hqreach : ∀ q ∈ seeds.dedup, ReachFromVia next seeds q := by
      intro q hqm
      exact ⟨q, List.mem_dedup.mp hqm, Relation.ReflTransGen.refl⟩
    obtain ⟨vs, hvs⟩ := extractLoop_runs next ((O.terms.map Prod.fst).toFinset)
      hdom seeds hpres (O.extractFuel seeds) [] seeds.dedup
      (List.nodup_dedup _) (by simp) hqreach
      (by
        have h1 : (((O.terms.map Prod.fst).toFinset).filter
            (fun i => i ∉ ([] : List String) ∧ i ∉ seeds.dedup)).card ≤
            ((O.terms.map Prod.fst).toFinset).card := Finset.card_filter_le _ _
        have h2 : ((O.terms.map Prod.fst).toFinset).card ≤ (O.terms.map Prod.fst).length :=
          List.toFinset_card_le _
        rw [List.length_map] at h2
        unfold Ontology.extractFuel
        omega)
    refine ⟨vs, hvs, ?_⟩
    refine extractLoop_ok_characterize next seeds (O.extractFuel seeds) [] seeds.dedup vs
      (List.nodup_dedup _) (by simp) (by simp) hqreach (by simp) ?_ hvs
    intro s hs
    exact Or.inr (List.mem_dedup.mpr hs)
  have hdomUp : ∀ x, (nextUp O x).isSome → x ∈ (O.terms.map Prod.fst).toFinset := by
    intro x hx
    rw [List.mem_toFinset]
    unfold nextUp at hx
    cases hf : O.find? x with
    | none => rw [hf] at hx; simp at hx
    | some td => exact mem_keys_of_assocFind?_some hf
  have hdomDown : ∀ x, (nextDown O x).isSome → x ∈ (O.terms.map Prod.fst).toFinset := by
    intro x hx
    rw [List.mem_toFinset]
    unfold nextDown at hx
    cases hf : O.find? x with
    | none => rw [hf] at hx; simp at hx
    | some td => exact mem_keys_of_assocFind?_some hf
  exact ⟨key (nextUp O) hdomUp hup, key (nextDown O) hdomDown hdown⟩

theorem extract_graphs_terminate_witness :
    (∃ vs, ontCyc.ExtractSuperGraph ["A"] = some (.ok vs) ∧
      ∀ x, x ∈ vs ↔ ReachFromVia (nextUp ontCyc) ["A"] x) ∧
    (∃ vs, ontCyc.ExtractSubGraph ["A"] = some (.ok vs) ∧
      ∀ x, x ∈ vs ↔ ReachFromVia (nextDown ontCyc) ["A"] x) := by
  have hbound : ∀ (next : String → Option (List String)),
      next "A" = some ["B"] → next "B" = some ["A"] →
      ∀ x, ReachFromVia next ["A"] x → x = "A" ∨ x = "B" := by
    intro next hA hB x ⟨s, hs, hr⟩
    have hs' : s = "A" := by simpa using hs
    subst hs'
    induction hr with
    | refl => exact Or.inl rfl
    | tail _ hstep ihr =>
      obtain ⟨ns, hns, hy⟩ := hstep
      rcases ihr with h1 | h1
      · rw [h1, hA] at hns
        injection hns with hns
        subst hns
        simp only [List.mem_singleton] at hy
        exact Or.inr hy
      · rw [h1, hB] at hns
        injection hns with hns
        subst hns
        simp only [List.mem_singleton] at hy
        exact Or.inl hy
  apply extract_graphs_terminate
  · intro x hx
    rcases hbound (nextUp ontCyc) rfl rfl x hx with rfl | rfl <;> decide
  · intro x hx
    rcases hbound (nextDown ontCyc) rfl rfl x hx with rfl | rfl <;> decide

/-! ## C7: per-line stanza parsing -/

theorem splitFirst_eq_none (c : Char) (l : List Char) : splitFirst c l = none ↔ c ∉ l := by
  induction l with
  | nil => simp [splitFirst]
  | cons x xs ih =>
    by_cases h : x = c
    · subst h; simp [splitFirst]
    · rw [splitFirst, if_neg h, Option.map_eq_none', ih]
      constructor
      · intro h1 hc
        rcases List.mem_cons.mp hc with hc | hc
        · exact h hc.symm
        · exact h1 hc
      · intro h1 hc
        exact h1 (List.mem_cons_of_mem _ hc)

theorem splitFirst_eq_some (c : Char) :
    ∀ l a b : List Char, splitFirst c l = some (a, b) → l = a ++ c :: b ∧ c ∉ a := by
  intro l
  induction l with
  | nil => intro a b h; simp [splitFirst] at h
  | cons x xs ih =>
    intro a b h
    by_cases hx : x = c
    · subst hx
      rw [splitFirst, if_pos rfl] at h
      injection h with h
      injection h with h1 h2
      subst h1
      subst h2
      exact ⟨rfl, by simp⟩
    · rw [splitFirst, if_neg hx] at h
      cases hs : splitFirst c xs with
      | none => rw [hs] at h; simp at h
      | some p =>
        obtain ⟨a', b'⟩ := p
        rw [hs] at h
        simp only [Option.map_some'] at h
        injection h with h
        injection h with h1 h2
        subst h1
        subst h2
        obtain ⟨hl, hn⟩ := ih a' b' hs
        refine ⟨by rw [hl]; rfl, fun hc => ?_⟩
        rcases List.mem_cons.mp hc with hc | hc
        · exact hx hc.symm
        · exact hn hc

theorem splitFirst_append (c : Char) :
    ∀ a b : List Char, c ∉ a → splitFirst c (a ++ c :: b) = some (a, b) := by
  intro a
  induction a with
  | nil => intro b _; simp [splitFirst]
  | cons x xs ih =>
    intro b ha
    have hx : ¬ x = c := fun hc => ha (by simp [hc])
    rw [List.cons_append, splitFirst, if_neg hx,
      ih b (fun hc => ha (List.mem_cons_of_mem _ hc))]
    rfl

theorem splitAll_ne_nil (c : Char) : ∀ l : List Char, splitAll c l ≠ [] := by
  intro l
  cases l with
  | nil => simp [splitAll]
  | cons x xs =>
    rw [splitAll]
    cases splitAll c xs with
    | nil => simp
    | cons h t =>
      by_cases hx : x = c <;> simp [hx]

theorem splitAll_of_not_mem (c : Char) : ∀ l : List Char, c ∉ l → splitAll c l = [l] := by
  intro l
  induction l with
  | nil => intro _; rfl
  | cons x xs ih =>
    intro h
    have hx : ¬ x = c := fun hc => h (by simp [hc])
    rw [splitAll, ih (fun hc => h (List.mem_cons_of_mem _ hc))]
    simp [hx]

theorem splitAll_append (c : Char) :
    ∀ a rest : List Char, c ∉ a → splitAll c (a ++ c :: rest) = a :: splitAll c rest := by
  intro a
  induction a with
  | nil =>
    intro rest _
    rw [List.nil_append, splitAll]
    cases hs : splitAll c rest with
    | nil => exact absurd hs (splitAll_ne_nil c rest)
    | cons h t => simp
  | cons x xs ih =>
    intro rest ha
    have hx : ¬ x = c := fun hc => ha (by simp [hc])
    rw [List.cons_append, splitAll, ih rest (fun hc => ha (List.mem_cons_of_mem _ hc))]
    simp [hx]

theorem splitAll_two (c : Char) (a b : List Char) (ha : c ∉ a) (hb : c ∉ b) :
    splitAll c (a ++ c :: b) = [a, b] := by
  rw [splitAll_append c a b ha, splitAll_of_not_mem c b hb]

theorem processLine_good (mts : List (List Char)) (vals : TagValues) (line : List Char)
    (hgood : goodLine line = true) :
    processLine mts vals line = .ok
      (match lineTagValue line with
       | none => vals
       | some (tag, v) => setValue mts vals tag v) := by
  unfold processLine lineTagValue
  cases hs : splitFirst ':' line with
  | none => rfl
  | some p =>
    obtain ⟨tag, rest0⟩ := p
    dsimp only
    cases hb : splitFirst '!' rest0 with
    | none =>
      have hnotin : '!' ∉ rest0 := (splitFirst_eq_none _ _).mp hb
      simp only [if_neg hnotin]
    | some p2 =>
      obtain ⟨a, after⟩ := p2
      obtain ⟨hline, hna⟩ := splitFirst_eq_some '!' rest0 a after hb
      have hnafter : '!' ∉ after := by
        have h2 : goodLine line = true := hgood
        unfold goodLine at h2
        rw [hs] at h2
        dsimp only at h2
        rw [hb] at h2
        dsimp only at h2
        exact of_decide_eq_true h2
      have hmem : '!' ∈ rest0 := by
        rw [hline]
        exact List.mem_append_right _ (List.mem_cons_self _ _)
      rw [if_pos hmem]
      dsimp only
      rw [hline, splitAll_two '!' a after hna hnafter]

theorem taggedValues_cons (l : List Char) (lines : List (List Char)) (tag : List Char) :
    taggedValues (l :: lines) tag =
      (match lineTagValue l with
       | some (t, v) => if t = tag then [v] else []
       | none => []) ++ taggedValues lines tag := by
  show (match lineTagValue l with
        | some (t, v) => if t = tag then v :: taggedValues lines tag else taggedValues lines tag
        | none => taggedValues lines tag) = _
  cases hl : lineTagValue l with
  | none => rfl
  | some p =>
    obtain ⟨t, v⟩ := p
    by_cases ht : t = tag <;> simp [ht]

theorem taggedValues_append (lines₁ lines₂ : List (List Char)) (tag : List Char) :
    taggedValues (lines₁ ++ lines₂) tag =
      taggedValues lines₁ tag ++ taggedValues lines₂ tag := by
  induction lines₁ with
  | nil => rfl
  | cons l ls ih =>
    rw [List.cons_append, taggedValues_cons, taggedValues_cons, ih, List.append_assoc]

theorem expected_after_line (mts : List (List Char)) (done : List (List Char))
    (vals : TagValues) (hInv : ∀ tag, assocFind? tag vals = expectedTag mts done tag)
    (l : List Char) :
    ∀ tag, assocFind? tag
        (match lineTagValue l with
         | none => vals
         | some (t, v) => setValue mts vals t v) =
      expectedTag mts (done ++ [l]) tag := by
  intro tag
  have htv0 : taggedValues (done ++ [l]) tag = taggedValues done tag ++
      (match lineTagValue l with
       | some (t, v) => if t = tag then [v] else []
       | none => []) := by
    rw [taggedValues_append]
    congr 1
  cases hl : lineTagValue l with
  | none =>
    rw [hl] at htv0
    dsimp only at htv0 ⊢
    rw [hInv tag]
    simp [expectedTag, htv0]
  | some p =>
    obtain ⟨t₀, v₀⟩ := p
    rw [hl] at htv0
    dsimp only at htv0 ⊢
    by_cases htag : t₀ = tag
    · subst htag
      rw [if_pos rfl] at htv0
      unfold setValue
      by_cases hmts : t₀ ∈ mts
      · rw [if_pos hmts]
        rw [assocFind?_assocSet_self, hInv t₀]
        unfold expectedTag
        rw [if_pos hmts, if_pos hmts, htv0]
        by_cases hvs : (taggedValues done t₀).isEmpty = true
        · have hnil : taggedValues done t₀ = [] := by
            cases hx : taggedValues done t₀
            · rfl
            · rw [hx] at hvs; simp at hvs
          rw [hnil]
          simp
        · have hne : ¬ (taggedValues done t₀ ++ [v₀]).isEmpty = true := by
            cases hx : taggedValues done t₀ <;> simp
          rw [if_neg hvs, if_neg hne]
      · rw [if_neg hmts]
        rw [assocFind?_assocSet_self]
        unfold expectedTag
        rw [if_neg hmts, htv0, List.getLast?_concat]
        rfl
    · rw [if_neg htag] at htv0
      have hunch : assocFind? tag (setValue mts vals t₀ v₀) = assocFind? tag vals := by
        unfold setValue
        by_cases hmts : t₀ ∈ mts
        · rw [if_pos hmts]
          exact assocFind?_assocSet_ne _ _ _ _ (fun hc => htag hc.symm)
        · rw [if_neg hmts]
          exact assocFind?_assocSet_ne _ _ _ _ (fun hc => htag hc.symm)
      rw [hunch, hInv tag]
      simp [expectedTag, htv0]

theorem ParseStanza_fold (mts : List (List Char)) :
    ∀ (lines done : List (List Char)) (vals : TagValues),
      (∀ l ∈ lines, goodLine l = true) →
      (∀ tag, assocFind? tag vals = expectedTag mts done tag) →
      ∃ vals', lines.foldlM (processLine mts) vals = .ok vals' ∧
        ∀ tag, assocFind? tag vals' = expectedTag mts (done ++ lines) tag := by
  intro lines
  induction lines with
  | nil =>
    intro done vals _ hInv
    exact ⟨vals, rfl, by simpa using hInv⟩
  | cons l ls ih =>
    intro done vals hgood hInv
    have h1 := processLine_good mts vals l (hgood l (List.mem_cons_self _ _))
    have hInv' := expected_after_line mts done vals hInv l
    obtain ⟨vals', hfold, hInv''⟩ :=
      ih (done ++ [l]) _ (fun x hx => hgood x (List.mem_cons_of_mem _ hx)) hInv'
    refine ⟨vals', ?_, ?_⟩
    · rw [List.foldlM_cons, h1]
      exact hfold
    · intro tag
      rw [show done ++ (l :: ls) = (done ++ [l]) ++ ls by
        rw [List.append_assoc]; rfl]
      exact hInv'' tag

/-- C7 (amended): for every stanza whose lines each hold at most one `'!'`
after their first colon, `ParseStanza` succeeds and behaves as claimed: each
line with a colon is split at the first colon into (tag, rest); the comment
after the (single) `'!'` is split off; a `'{'` starts the modifier block,
which is cut away; the remaining whitespace-trimmed text is the value; tags
declared multi-valued accumulate their values in order of occurrence, all
other tags keep the last occurrence.  (A line holding two or more `'!'`
raises `ValueError` instead — see the counterexample theorem.) -/
theorem ParseStanza_line_semantics (mts : List (List Char)) (lines : List (List Char))
    (hgood : ∀ l ∈ lines, goodLine l = true) :
    (∃ vals, ParseStanza mts lines = .ok vals ∧
      ∀ tag, assocFind? tag vals = expectedTag mts lines tag) ∧
    (∀ tag v, ':' ∉ tag → '!' ∉ v → '{' ∉ v →
      lineTagValue (tag ++ ':' :: v) = some (tag, trimValue v)) ∧
    (∀ tag v com, ':' ∉ tag → '!' ∉ v → '{' ∉ v →
      lineTagValue (tag ++ ':' :: (v ++ '!' :: com)) = some (tag, trimValue v)) ∧
    (∀ tag v mods, ':' ∉ tag → '!' ∉ v → '!' ∉ mods → '{' ∉ v →
      lineTagValue (tag ++ ':' :: (v ++ '{' :: mods)) = some (tag, trimValue v)) := by
  refine ⟨?_, ?_, ?_, ?_⟩
  · obtain ⟨vals, h1, h2⟩ := ParseStanza_fold mts lines [] []
      hgood (fun tag => by simp [expectedTag, taggedValues, assocFind?])
    exact ⟨vals, h1, by simpa using h2⟩
  · intro tag v ht hv hb
    unfold lineTagValue
    rw [splitFirst_append ':' tag v ht]
    dsimp only
    rw [(splitFirst_eq_none '!' v).mpr hv]
    dsimp only
    rw [(splitFirst_eq_none '{' v).mpr hb]
  · intro tag v com ht hv hb
    unfold lineTagValue
    rw [splitFirst_append ':' tag _ ht]
    dsimp only
    rw [splitFirst_append '!' v com hv]
    dsimp only
    rw [(splitFirst_eq_none '{' v).mpr hb]
  · intro tag v mods ht hv hm hb
    have hne : '!' ∉ v ++ '{' :: mods := by
      intro hc
      rcases List.mem_append.mp hc with hc | hc
      · exact hv hc
      · rcases List.mem_cons.mp hc with hc | hc
        · exact absurd hc (by decide)
        · exact hm hc
    unfold lineTagValue
    rw [splitFirst_append ':' tag _ ht]
    dsimp only
    rw [(splitFirst_eq_none '!' _).mpr hne]
    dsimp only
    rw [splitFirst_append '{' v mods hb]

theorem ParseStanza_line_semantics_witness :
    (∃ vals, ParseStanza stanzaMts stanzaLines = .ok vals ∧
      ∀ tag, assocFind? tag vals = expectedTag stanzaMts stanzaLines tag) ∧
    (∀ tag v, ':' ∉ tag → '!' ∉ v → '{' ∉ v →
      lineTagValue (tag ++ ':' :: v) = some (tag, trimValue v)) ∧
    (∀ tag v com, ':' ∉ tag → '!' ∉ v → '{' ∉ v →
      lineTagValue (tag ++ ':' :: (v ++ '!' :: com)) = some (tag, trimValue v)) ∧
    (∀ tag v mods, ':' ∉ tag → '!' ∉ v → '!' ∉ mods → '{' ∉ v →
      lineTagValue (tag ++ ':' :: (v ++ '{' :: mods)) = some (tag, trimValue v)) :=
  ParseStanza_line_semantics stanzaMts stanzaLines (by decide)

/-- C7: refuted as universally stated — a stanza line whose post-colon rest
holds two `'!'` characters does not get its comment split off; the unpacking
`rest, comment = rest.split("!")` raises `ValueError` and aborts the stanza
parse. -/
theorem ParseStanza_double_bang_value_error :
    ParseStanza [] ["a: b!c!d".toList] =
      .error (.valueError "too many values to unpack") := rfl

/-! ## C8: the widget appends step-up FDR values -/

theorem mem_insertPair (a x : ℚ × ℕ) (l : List (ℚ × ℕ)) :
    a ∈ insertPair x l ↔ a = x ∨ a ∈ l := by
  induction l with
  | nil => simp [insertPair]
  | cons y ys ih =>
    rw [insertPair]
    by_cases hc : x.1 < y.1 ∨ (x.1 = y.1 ∧ x.2 < y.2)
    · rw [if_pos hc]
      simp [List.mem_cons]
    · rw [if_neg hc]
      simp only [List.mem_cons, ih]
      tauto

theorem insertPair_perm (x : ℚ × ℕ) (l : List (ℚ × ℕ)) :
    (insertPair x l).Perm (x :: l) := by
  induction l with
  | nil => simp [insertPair]
  | cons y ys ih =>
    rw [insertPair]
    by_cases hc : x.1 < y.1 ∨ (x.1 = y.1 ∧ x.2 < y.2)
    · rw [if_pos hc]
    · rw [if_neg hc]
      exact (List.Perm.cons y ih).trans (List.Perm.swap x y ys)

theorem sortPairs_perm (l : List (ℚ × ℕ)) : (sortPairs l).Perm l := by
  induction l with
  | nil => exact List.Perm.refl _
  | cons x xs ih =>
    exact (insertPair_perm x (sortPairs xs)).trans (List.Perm.cons x ih)

theorem lexLe_total_of_not (x y : ℚ × ℕ)
    (hc : ¬ (x.1 < y.1 ∨ (x.1 = y.1 ∧ x.2 < y.2))) : lexLe y x := by
  push_neg at hc
  obtain ⟨h1, h2⟩ := hc
  rcases lt_or_eq_of_le h1 with h | h
  · exact Or.inl h
  · exact Or.inr ⟨h, h2 h.symm⟩

theorem insertPair_sorted (x : ℚ × ℕ) (l : List (ℚ × ℕ))
    (h : List.Sorted lexLe l) : List.Sorted lexLe (insertPair x l) := by
  induction l with
  | nil => simp [insertPair]
  | cons y ys ih =>
    rw [insertPair]
    by_cases hc : x.1 < y.1 ∨ (x.1 = y.1 ∧ x.2 < y.2)
    · rw [if_pos hc]
      refine List.sorted_cons.mpr ⟨?_, h⟩
      intro b hb
      have hxy : lexLe x y := by
        rcases hc with hc | ⟨hc1, hc2⟩
        · exact Or.inl hc
        · exact Or.inr ⟨hc1, hc2.le⟩
      rcases List.mem_cons.mp hb with rfl | hb
      · exact hxy
      · have hyb : lexLe y b := (List.sorted_cons.mp h).1 b hb
        rcases hxy with h1 | ⟨h1, h2⟩ <;> rcases hyb with h3 | ⟨h3, h4⟩
        · exact Or.inl (h1.trans h3)
        · exact Or.inl (h3 ▸ h1)
        · exact Or.inl (h1 ▸ h3)
        · exact Or.inr ⟨h1.trans h3, h2.trans h4⟩
    · rw [if_neg hc]
      obtain ⟨hy, hys⟩ := List.sorted_cons.mp h
      refine List.sorted_cons.mpr ⟨?_, ih hys⟩
      intro b hb
      rcases (mem_insertPair b x ys).mp hb with rfl | hb
      · exact lexLe_total_of_not _ y hc
      · exact hy b hb

theorem sortPairs_sorted (l : List (ℚ × ℕ)) : List.Sorted lexLe (sortPairs l) := by
  induction l with
  | nil => simp [sortPairs]
  | cons x xs ih => exact insertPair_sorted x (sortPairs xs) ih

theorem sortPairs_withIdx_of_sorted (ps : List ℚ)
    (h : List.Sorted (fun a b => a ≤ b) ps) :
    ∀ i, sortPairs (withIdx i ps) = withIdx i ps := by
  induction ps with
  | nil => intro i; rfl
  | cons p ps ih =>
    intro i
    obtain ⟨hp, hps⟩ := List.sorted_cons.mp h
    show insertPair (p, i) (sortPairs (withIdx (i + 1) ps)) = _
    rw [ih hps (i + 1)]
    cases ps with
    | nil => rfl
    | cons q ps' =>
      show insertPair (p, i) ((q, i + 1) :: withIdx (i + 2) ps') = _
      rw [insertPair]
      have hpq : p ≤ q := hp q (List.mem_cons_self _ _)
      have hcond : (p, i).1 < (q, i + 1).1 ∨
          ((p, i).1 = (q, i + 1).1 ∧ (p, i).2 < (q, i + 1).2) := by
        rcases lt_or_eq_of_le hpq with h1 | h1
        · exact Or.inl h1
        · exact Or.inr ⟨h1, by omega⟩
      rw [if_pos hcond]
      rfl

theorem rawFDRs_withIdx (m : ℕ) :
    ∀ (ps : List ℚ) (i : ℕ), rawFDRs m i (withIdx i ps) = withIdx i (stepUpRaw m i ps) := by
  intro ps
  induction ps with
  | nil => intro i; rfl
  | cons p rest ih =>
    intro i
    show (p * (m : ℚ) / ((i : ℚ) + 1), i) :: rawFDRs m (i + 1) (withIdx (i + 1) rest) = _
    rw [ih (i + 1)]
    rfl

theorem suffixMins_withIdx :
    ∀ (l : List ℚ) (i : ℕ), suffixMins (withIdx i l) = withIdx i (sufMinList l) := by
  intro l
  induction l with
  | nil => intro i; rfl
  | cons v rest ih =>
    intro i
    show (match suffixMins (withIdx (i + 1) rest) with
          | [] => [(v, i)]
          | (w, k) :: tail => (min v w, i) :: (w, k) :: tail) = _
    rw [ih (i + 1)]
    cases hs : sufMinList rest with
    | nil =>
      rw [sufMinList, hs]
      rfl
    | cons w t =>
      rw [sufMinList, hs]
      rfl

theorem find?_withIdx (l : List ℚ) :
    ∀ i j, (((withIdx i l).find? (fun q => decide (q.2 = j))).map Prod.fst) =
      if i ≤ j then l[j - i]? else none := by
  induction l with
  | nil =>
    intro i j
    by_cases hij : i ≤ j <;> simp [withIdx, hij]
  | cons v rest ih =>
    intro i j
    have hcons : withIdx i (v :: rest) = (v, i) :: withIdx (i + 1) rest := rfl
    by_cases hij : i = j
    · subst hij
      rw [hcons, List.find?_cons_of_pos _ (by simp)]
      simp
    · rw [hcons, List.find?_cons_of_neg _ (by simpa using hij), ih (i + 1) j]
      by_cases hle : i ≤ j
      · have hlt : i + 1 ≤ j := by omega
        rw [if_pos hlt, if_pos hle]
        have hsub : j - i = (j - (i + 1)) + 1 := by omega
        rw [hsub, List.getElem?_cons_succ]
      · rw [if_neg hle, if_neg (by omega)]

theorem stepUpRaw_length (m : ℕ) : ∀ (ps : List ℚ) (i : ℕ), (stepUpRaw m i ps).length = ps.length := by
  intro ps
  induction ps with
  | nil => intro i; rfl
  | cons p rest ih => intro i; simp [stepUpRaw, ih (i + 1)]

theorem sufMinList_length : ∀ l : List ℚ, (sufMinList l).length = l.length := by
  intro l
  induction l with
  | nil => rfl
  | cons v rest ih =>
    rw [sufMinList]
    cases hs : sufMinList rest with
    | nil =>
      rw [hs] at ih
      simp only [List.length_cons, ← ih]
    | cons w t =>
      rw [hs] at ih
      simp only [List.length_cons] at ih ⊢
      omega

theorem sufMinList_getElem? :
    ∀ (l : List ℚ) (j : ℕ), (sufMinList l)[j]? = (l.drop j).min? := by
  intro l
  induction l with
  | nil => intro j; simp [sufMinList]
  | cons v rest ih =>
    intro j
    cases j with
    | zero =>
      rw [sufMinList, List.drop_zero]
      cases hs : sufMinList rest with
      | nil =>
        have hrest : rest = [] := by
          have hl := sufMinList_length rest
          rw [hs] at hl
          exact List.length_eq_zero.mp hl.symm
        subst hrest
        simp
      | cons w t =>
        have hw : rest.min? = some w := by
          have h0 := ih 0
          rw [hs, List.drop_zero] at h0
          simpa using h0.symm
        dsimp only
        rw [List.min?_cons, hw]
        rfl
    | succ j' =>
      rw [sufMinList, List.drop_succ_cons]
      cases hs : sufMinList rest with
      | nil =>
        have hrest : rest = [] := by
          have hl := sufMinList_length rest
          rw [hs] at hl
          exact List.length_eq_zero.mp hl.symm
        subst hrest
        simp
      | cons w t =>
        dsimp only
        rw [List.getElem?_cons_succ, ← hs, ih j']

theorem FDR_length (ps : List ℚ) : (FDR ps).length = ps.length := by
  simp [FDR]

theorem FDR_sorted_spec (ps : List ℚ) (h : List.Sorted (fun a b => a ≤ b) ps) :
    ∀ j, (FDR ps)[j]? = ((stepUpRaw ps.length 0 ps).drop j).min? := by
  intro j
  have hadj : suffixMins (rawFDRs ps.length 0 (sortPairs (withIdx 0 ps))) =
      withIdx 0 (sufMinList (stepUpRaw ps.length 0 ps)) := by
    rw [sortPairs_withIdx_of_sorted ps h 0, rawFDRs_withIdx ps.length ps 0,
      suffixMins_withIdx]
  by_cases hj : j < ps.length
  · have hmap : (FDR ps)[j]? = some
        ((((suffixMins (rawFDRs ps.length 0 (sortPairs (withIdx 0 ps)))).find?
          (fun q => decide (q.2 = j))).map Prod.fst).getD 0) := by
      simp only [FDR]
      rw [List.getElem?_map, List.getElem?_range hj]
      rfl
    rw [hmap, hadj, find?_withIdx (sufMinList (stepUpRaw ps.length 0 ps)) 0 j,
      if_pos (Nat.zero_le j), Nat.sub_zero, sufMinList_getElem?]
    cases hm : ((stepUpRaw ps.length 0 ps).drop j).min? with
    | none =>
      rw [List.min?_eq_none_iff, List.drop_eq_nil_iff, stepUpRaw_length] at hm
      omega
    | some v => rfl
  · have h1 : (FDR ps)[j]? = none := by
      rw [List.getElem?_eq_none_iff, FDR_length]
      omega
    have h2 : ((stepUpRaw ps.length 0 ps).drop j).min? = none := by
      rw [List.min?_eq_none_iff, List.drop_eq_nil_iff]
      rw [stepUpRaw_length]
      omega
    rw [h1, h2]

theorem zipWith_getElem?' {α β γ : Type} (f : α → β → γ) :
    ∀ (as : List α) (bs : List β) (k : ℕ),
      (List.zipWith f as bs)[k]? =
        match as[k]?, bs[k]? with
        | some a, some b => some (f a b)
        | _, _ => none := by
  intro as
  induction as with
  | nil => intro bs k; cases bs <;> cases k <;> simp
  | cons a as ih =>
    intro bs k
    cases bs with
    | nil => cases k <;> simp
    | cons b bs =>
      cases k with
      | zero => simp
      | succ k' => simpa using ih bs k'

/-- C8: after enrichment, the widget's post-pass appends to every tested
term's 3-tuple an FDR value, producing the 4-tuple (genes, p, refCount, fdr);
the appended value at each position is `FDR(pvals)` at that position, where
`FDR` (modelled from the spec, `stats.FDR` not being among the sources) is
the step-up procedure: a stable ascending sort of the p-values, raw values
`p_i * m / rank_i` with 1-based ranks, and a running minimum from the
largest rank down, so that on an already-sorted input the value at position
`j` is the minimum of `p_s * m / (s+1)` over all positions `s ≥ j`. -/
theorem enrichment_fdr_append (terms : List (String × (List String × ℚ × ℕ))) :
    (enrichmentFDRPass terms).length = terms.length ∧
    (∀ (k : ℕ) (t : String) (g : List String) (p : ℚ) (rc : ℕ),
      terms[k]? = some (t, (g, p, rc)) →
      ∃ fdr, (FDR (terms.map (fun e => e.2.2.1)))[k]? = some fdr ∧
        (enrichmentFDRPass terms)[k]? = some (t, (g, p, rc, fdr))) ∧
    (∀ ps : List ℚ, (FDR ps).length = ps.length) ∧
    (∀ l : List (ℚ × ℕ), (sortPairs l).Perm l ∧ List.Sorted lexLe (sortPairs l)) ∧
    (∀ ps : List ℚ, List.Sorted (fun a b => a ≤ b) ps →
      ∀ j, (FDR ps)[j]? = ((stepUpRaw ps.length 0 ps).drop j).min?) := by
  refine ⟨?_, ?_, FDR_length, fun l => ⟨sortPairs_perm l, sortPairs_sorted l⟩,
    FDR_sorted_spec⟩
  · rw [enrichmentFDRPass, List.length_zipWith, FDR_length, List.length_map]
    omega
  · intro k t g p rc hk
    have hklt : k < terms.length := by
      rcases List.getElem?_eq_some_iff.mp hk with ⟨h1, _⟩
      exact h1
    have hflt : k < (FDR (terms.map (fun e => e.2.2.1))).length := by
      rw [FDR_length, List.length_map]
      exact hklt
    obtain ⟨fdr, hfdr⟩ : ∃ fdr, (FDR (terms.map (fun e => e.2.2.1)))[k]? = some fdr := by
      cases hx : (FDR (terms.map (fun e => e.2.2.1)))[k]? with
      | none =>
        rw [List.getElem?_eq_none_iff] at hx
        omega
      | some v => exact ⟨v, rfl⟩
    refine ⟨fdr, hfdr, ?_⟩
    rw [enrichmentFDRPass]
    rw [zipWith_getElem?' _ terms (FDR (terms.map (fun e => e.2.2.1))) k, hk, hfdr]

theorem enrichment_fdr_append_witness :
    (∃ fdr, (FDR ([("t1", (["g"], (1 : ℚ)/2, 3)), ("t2", ([], (1 : ℚ)/4, 2))].map
        (fun e => e.2.2.1)))[0]? = some fdr ∧
      (enrichmentFDRPass [("t1", (["g"], (1 : ℚ)/2, 3)), ("t2", ([], (1 : ℚ)/4, 2))])[0]? =
        some ("t1", (["g"], (1 : ℚ)/2, 3, fdr))) ∧
    (FDR [(1 : ℚ), 2])[0]? =
      ((stepUpRaw ([(1 : ℚ), 2]).length 0 [(1 : ℚ), 2]).drop 0).min? :=
  ⟨(enrichment_fdr_append [("t1", (["g"], (1 : ℚ)/2, 3)), ("t2", ([], (1 : ℚ)/4, 2))]).2.1
      0 "t1" ["g"] ((1 : ℚ)/2) 3 rfl,
   (enrichment_fdr_append []).2.2.2.2 [(1 : ℚ), 2] (by decide) 0⟩

/-! ## C2: the enrichment result characterized -/

theorem mem_annClosS (A : Annotations) (a : AnnRec) (t : String) :
    a ∈ annClosS A t ↔
      a ∈ A.annotations ∧ ReachVia (nextDown A.ontology) t a.GOId := Iff.rfl

theorem mem_termAnnotationsF (A : Annotations) (a : AnnRec) (t : String) :
    a ∈ A.termAnnotationsF t ↔ a ∈ A.annotations ∧ a.GOId = t := by
  simp [Annotations.termAnnotationsF, Annotations.termAnnotations, List.mem_filter]

theorem reachDown_unfold (O : Ontology) (id x : String) (td : TermData)
    (h : O.find? id = some td) :
    ReachVia (nextDown O) id x ↔
      x = id ∨ ∃ p ∈ td.relatedTo, ReachVia (nextDown O) p.2 x := by
  constructor
  · intro hr
    rcases Relation.ReflTransGen.cases_head hr with heq | ⟨c, hstep, hr'⟩
    · exact Or.inl heq.symm
    · obtain ⟨ns, hns, hc⟩ := hstep
      rw [nextDown, h] at hns
      injection hns with hns
      subst hns
      obtain ⟨p, hp, hpc⟩ := List.mem_map.mp hc
      exact Or.inr ⟨p, hp, hpc ▸ hr'⟩
  · rintro (rfl | ⟨p, hp, hr'⟩)
    · exact Relation.ReflTransGen.refl
    · exact Relation.ReflTransGen.head
        ⟨td.relatedTo.map Prod.snd, by rw [nextDown, h]; rfl,
          List.mem_map.mpr ⟨p, hp, rfl⟩⟩ hr'

theorem biUnion_cons {α : Type} (hd : String × String) (tl : List (String × String))
    (f : String × String → Set α) :
    (⋃ p ∈ (hd :: tl), f p) = f hd ∪ ⋃ p ∈ tl, f p := by
  ext a
  simp only [Set.mem_iUnion, Set.mem_union, List.mem_cons]
  constructor
  · rintro ⟨p, ⟨(rfl | hp), ha⟩⟩
    · exact Or.inl ha
    · exact Or.inr ⟨p, hp, ha⟩
  · rintro (ha | ⟨p, hp, ha⟩)
    · exact ⟨hd, Or.inl rfl, ha⟩
    · exact ⟨p, Or.inr hp, ha⟩

theorem annClosS_unfold (A : Annotations) (id : String) (td : TermData)
    (h : A.ontology.find? id = some td) :
    annClosS A id =
      ↑(A.termAnnotationsF id) ∪ ⋃ p ∈ td.relatedTo, annClosS A p.2 := by
  ext a
  rw [Set.mem_union, Finset.mem_coe, mem_termAnnotationsF, mem_annClosS,
    reachDown_unfold A.ontology id a.GOId td h]
  simp only [Set.mem_iUnion]
  constructor
  · rintro ⟨ha, (hg | ⟨p, hp, hr⟩)⟩
    · exact Or.inl ⟨ha, hg⟩
    · exact Or.inr ⟨p, hp, ha, hr⟩
  · rintro (⟨ha, hg⟩ | ⟨p, hp, ha, hr⟩)
    · exact ⟨ha, Or.inl hg⟩
    · exact ⟨ha, Or.inr ⟨p, hp, hr⟩⟩

theorem chunksElems_append (l₁ l₂ : List AnnChunk) :
    chunksElems (l₁ ++ l₂) = chunksElems l₁ ∪ chunksElems l₂ := by
  induction l₁ with
  | nil => simp [chunksElems]
  | cons c cs ih =>
    show chunkElems c ∪ chunksElems (cs ++ l₂) = (chunkElems c ∪ chunksElems cs) ∪ _
    rw [ih, Finset.union_assoc]

theorem chunksElems_newChunks (v : CacheVal) :
    chunksElems (match v with | .reduced s => [Sum.inr s] | .raw l => l) = v.elems := by
  cases v with
  | raw l => rfl
  | reduced s =>
    show chunkElems (Sum.inr s) ∪ ∅ = s
    simp [chunkElems]

theorem CacheInv_assocSet (A : Annotations) (ref : Finset AnnRec) (cache : AnnCache)
    (id : String) (v : CacheVal) (h : CacheInv A ref cache) (hv : GoodVal A ref id v) :
    CacheInv A ref (assocSet id v cache) := by
  intro k w hw
  by_cases hk : k = id
  · subst hk
    rw [assocFind?_assocSet_self] at hw
    injection hw with hw
    subst hw
    exact hv
  · rw [assocFind?_assocSet_ne _ _ _ _ hk] at hw
    exact h k w hw

theorem collectStep_sound (A : Annotations) (ref : Finset AnnRec) (fuel : ℕ)
    (hcol : ∀ cache id c' r, CacheInv A ref cache →
      A.CollectAnnotations fuel cache id = some (c', r) →
      CacheInv A ref c' ∧ ∀ v, r = .ok v → GoodVal A ref id v) :
    ∀ (cs : List (String × String)) (cache : AnnCache) (c' : AnnCache)
      (r : Except PyError (List AnnChunk)),
      CacheInv A ref cache →
      collectStep (A.CollectAnnotations fuel) cache cs = some (c', r) →
      CacheInv A ref c' ∧ ∀ chunks, r = .ok chunks →
        (↑(chunksElems chunks) ⊆ ⋃ p ∈ cs, annClosS A p.2) ∧
        ((⋃ p ∈ cs, annClosS A p.2) ∩ ↑ref ⊆ ↑(chunksElems chunks)) := by
  intro cs
  induction cs with
  | nil =>
    intro cache c' r hInv h
    rw [collectStep] at h
    injection h with h
    injection h with h1 h2
    subst h1
    subst h2
    refine ⟨hInv, ?_⟩
    rintro chunks hc
    injection hc with hc
    subst hc
    constructor
    · intro a ha
      simp [chunksElems] at ha
    · intro a ha
      simp at ha
  | cons hd cs ih =>
    intro cache c' r hInv h
    obtain ⟨ty, child⟩ := hd
    rw [collectStep] at h
    cases h1 : A.CollectAnnotations fuel cache child with
    | none => rw [h1] at h; simp at h
    | some p1 =>
      obtain ⟨c₁, r₁⟩ := p1
      rw [h1] at h
      obtain ⟨hInv₁, hGood₁⟩ := hcol cache child c₁ r₁ hInv h1
      cases r₁ with
      | error e =>
        dsimp only at h
        injection h with h
        injection h with ha hb
        subst ha
        subst hb
        exact ⟨hInv₁, fun chunks hc => by cases hc⟩
      | ok v =>
        dsimp only at h
        cases h2 : collectStep (A.CollectAnnotations fuel) c₁ cs with
        | none => rw [h2] at h; simp at h
        | some p2 =>
          obtain ⟨c₂, r₂⟩ := p2
          rw [h2] at h
          obtain ⟨hInv₂, hBounds₂⟩ := ih c₁ c₂ r₂ hInv₁ h2
          cases r₂ with
          | error e =>
            dsimp only at h
            injection h with h
            injection h with ha hb
            subst ha
            subst hb
            exact ⟨hInv₂, fun chunks hc => by cases hc⟩
          | ok chunks =>
            dsimp only at h
            have hnc := chunksElems_newChunks v
            generalize (match v with | CacheVal.reduced s => [Sum.inr s] | CacheVal.raw l => l) = nc at h hnc
            injection h with h
            injection h with ha hb
            subst ha
            rw [← hb]
            refine ⟨hInv₂, ?_⟩
            rintro chunks' hc
            injection hc with hc
            subst hc
            obtain ⟨hsub, hsup⟩ := hBounds₂ chunks rfl
            obtain ⟨hvsub, hvsup⟩ := hGood₁ v rfl
            rw [chunksElems_append, hnc, biUnion_cons]
            constructor
            · rw [Finset.coe_union]
              exact Set.union_subset_union hvsub hsub
            · rw [Set.union_inter_distrib_right, Finset.coe_union]
              exact Set.union_subset_union hvsup hsup

theorem CollectAnnotations_sound (A : Annotations) (ref : Finset AnnRec) :
    ∀ (fuel : ℕ) (cache : AnnCache) (id : String) (c' : AnnCache)
      (r : Except PyError CacheVal),
      CacheInv A ref cache →
      A.CollectAnnotations fuel cache id = some (c', r) →
      CacheInv A ref c' ∧ ∀ v, r = .ok v → GoodVal A ref id v := by
  intro fuel
  induction fuel with
  | zero =>
    intro cache id c' r _ h
    rw [Annotations.CollectAnnotations] at h
    cases h
  | succ fuel ih =>
    intro cache id c' r hInv h
    rw [Annotations.CollectAnnotations] at h
    cases h1 : assocFind? id cache with
    | some v =>
      rw [h1] at h
      injection h with h
      injection h with ha hb
      subst ha
      refine ⟨hInv, ?_⟩
      rintro w hw
      rw [← hb] at hw
      injection hw with hw
      subst hw
      exact hInv id _ h1
    | none =>
      rw [h1] at h
      dsimp only at h
      cases h2 : A.ontology.find? id with
      | none =>
        rw [h2] at h
        injection h with h
        injection h with ha hb
        subst ha
        refine ⟨hInv, ?_⟩
        rintro v hv
        rw [← hb] at hv
        cases hv
      | some td =>
        rw [h2] at h
        dsimp only at h
        cases h3 : collectStep (A.CollectAnnotations fuel) cache td.relatedTo with
        | none => rw [h3] at h; simp at h
        | some p3 =>
          obtain ⟨c₁, r₁⟩ := p3
          rw [h3] at h
          obtain ⟨hInv₁, hBounds₁⟩ := collectStep_sound A ref fuel ih td.relatedTo cache c₁ r₁ hInv h3
          cases r₁ with
          | error e =>
            dsimp only at h
            injection h with h
            injection h with ha hb
            subst ha
            refine ⟨hInv₁, ?_⟩
            rintro v hv
            rw [← hb] at hv
            cases hv
          | ok chunks =>
            dsimp only at h
            injection h with h
            injection h with ha hb
            obtain ⟨hsub, hsup⟩ := hBounds₁ chunks rfl
            have hGood : GoodVal A ref id
                (CacheVal.raw (Sum.inl (A.termAnnotations id) :: chunks)) := by
              have helems : (CacheVal.raw (Sum.inl (A.termAnnotations id) :: chunks)).elems =
                  A.termAnnotationsF id ∪ chunksElems chunks := rfl
              have hclos := annClosS_unfold A id td h2
              constructor
              · rw [helems, Finset.coe_union, hclos]
                exact Set.union_subset_union (fun a ha => ha) hsub
              · rw [helems, Finset.coe_union, hclos, Set.union_inter_distrib_right]
                refine Set.union_subset ?_ ?_
                · exact fun a ha => Or.inl ha.1
                · exact fun a ha => Or.inr (hsup ha)
            refine ⟨?_, ?_⟩
            · rw [← ha]
              exact CacheInv_assocSet A ref c₁ id _ hInv₁ hGood
            · rintro v hv
              rw [← hb] at hv
              injection hv with hv
              subst hv
              exact hGood

theorem GetAllAnnotations_sound (A : Annotations) (ref : Finset AnnRec) (fuel : ℕ)
    (cache : AnnCache) (id : String) (c' : AnnCache) (r : Except PyError (Finset AnnRec))
    (hInv : CacheInv A ref cache)
    (h : A.GetAllAnnotations fuel cache id = some (c', r)) :
    CacheInv A ref c' ∧ ∀ s, r = .ok s → GoodVal A ref id (.reduced s) := by
  rw [Annotations.GetAllAnnotations] at h
  have main : ∀ (h : (match A.CollectAnnotations fuel cache id with
      | none => none
      | some (c₁, .error e) => some (c₁, .error e)
      | some (c₁, .ok v) => some (assocSet id (.reduced v.elems) c₁, .ok v.elems)) =
        some (c', r)),
      CacheInv A ref c' ∧ ∀ s, r = .ok s → GoodVal A ref id (.reduced s) := by
    intro h
    cases hc : A.CollectAnnotations fuel cache id with
    | none => rw [hc] at h; cases h
    | some p =>
      obtain ⟨c₁, r₁⟩ := p
      rw [hc] at h
      obtain ⟨hInv₁, hGood₁⟩ := CollectAnnotations_sound A ref fuel cache id c₁ r₁ hInv hc
      cases r₁ with
      | error e =>
        dsimp only at h
        injection h with h
        injection h with ha hb
        subst ha
        refine ⟨hInv₁, ?_⟩
        rintro s hs
        rw [← hb] at hs
        cases hs
      | ok v =>
        dsimp only at h
        injection h with h
        injection h with ha hb
        have hGood : GoodVal A ref id (CacheVal.reduced v.elems) := hGood₁ v rfl
        refine ⟨?_, ?_⟩
        · rw [← ha]
          exact CacheInv_assocSet A ref c₁ id _ hInv₁ hGood
        · rintro s hs
          rw [← hb] at hs
          injection hs with hs
          subst hs
          exact hGood
  cases h1 : assocFind? id cache with
  | none =>
    rw [h1] at h
    exact main h
  | some v =>
    cases v with
    | raw l =>
      rw [h1] at h
      exact main h
    | reduced s =>
      rw [h1] at h
      injection h with h
      injection h with ha hb
      subst ha
      refine ⟨hInv, ?_⟩
      rintro s' hs
      rw [← hb] at hs
      injection hs with hs
      subst hs
      exact hInv id _ h1

theorem enrichLoop_sound (A : Annotations) (pV : ℕ → ℕ → ℕ → ℕ → ℚ)
    (revD : List (String × String)) (genesSet refSet : Finset String)
    (refAnns : Finset AnnRec) (fuel : ℕ) :
    ∀ (ts : List String) (cache : AnnCache)
      (res : List (String × (List String × ℚ × ℕ))) (c' : AnnCache)
      (r : Except PyError (List (String × (List String × ℚ × ℕ)))),
      CacheInv A refAnns cache →
      A.enrichLoop pV revD genesSet refSet refAnns fuel cache res ts = some (c', r) →
      ∀ out, r = .ok out →
        out.map Prod.fst = res.map Prod.fst ++ ts ∧
        ∀ t e, (t, e) ∈ out → (t, e) ∈ res ∨
          ∃ s' : Finset AnnRec, ↑s' = annClosS A t ∩ ↑refAnns ∧
            e = enrichEntry pV revD genesSet refSet s' := by
  intro ts
  induction ts with
  | nil =>
    intro cache res c' r _ h out hout
    rw [Annotations.enrichLoop] at h
    injection h with h
    injection h with _ hb
    rw [← hb] at hout
    injection hout with hout
    subst hout
    exact ⟨(List.append_nil _).symm, fun t e he => Or.inl he⟩
  | cons t ts ih =>
    intro cache res c' r hInv h out hout
    rw [Annotations.enrichLoop] at h
    cases h1 : A.GetAllAnnotations fuel cache t with
    | none => rw [h1] at h; cases h
    | some p =>
      obtain ⟨c₁, r₁⟩ := p
      rw [h1] at h
      obtain ⟨hInv₁, hGood₁⟩ := GetAllAnnotations_sound A refAnns fuel cache t c₁ r₁ hInv h1
      cases r₁ with
      | error e =>
        dsimp only at h
        injection h with h
        injection h with _ hb
        rw [← hb] at hout
        cases hout
      | ok s =>
        dsimp only at h
        obtain ⟨hsub, hsup⟩ := hGood₁ s rfl
        have hset : ↑(s ∩ refAnns) = annClosS A t ∩ ↑refAnns := by
          rw [Finset.coe_inter]
          apply Set.Subset.antisymm
          · exact Set.inter_subset_inter_left _ hsub
          · intro a ha
            exact ⟨hsup ha, ha.2⟩
        have hGood' : GoodVal A refAnns t (CacheVal.reduced (s ∩ refAnns)) := by
          constructor
          · show ↑(s ∩ refAnns) ⊆ annClosS A t
            rw [hset]
            exact Set.inter_subset_left
          · show annClosS A t ∩ ↑refAnns ⊆ ↑(s ∩ refAnns)
            rw [hset]
        have hInv₂ : CacheInv A refAnns (assocSet t (.reduced (s ∩ refAnns)) c₁) :=
          CacheInv_assocSet A refAnns c₁ t _ hInv₁ hGood'
        obtain ⟨hkeys, hmem⟩ := ih _ _ c' r hInv₂ h out hout
        constructor
        · rw [hkeys, List.map_append, List.append_assoc]
          rfl
        · intro t' e' he'
          rcases hmem t' e' he' with hin | hex
          · rcases List.mem_append.mp hin with hin | hin
            · exact Or.inl hin
            · rcases List.mem_singleton.mp hin with heq
              injection heq with heq1 heq2
              subst heq1
              subst heq2
              exact Or.inr ⟨s ∩ refAnns, hset, rfl⟩
          · exact Or.inr hex

theorem mem_foldrUnion (A : Annotations) (dts : List String) (a : AnnRec) :
    a ∈ dts.foldr (fun d acc => A.termAnnotationsF d ∪ acc) ∅ ↔
      ∃ d ∈ dts, a ∈ A.termAnnotationsF d := by
  induction dts with
  | nil => simp
  | cons d ds ih =>
    show a ∈ A.termAnnotationsF d ∪ _ ↔ _
    rw [Finset.mem_union, ih]
    simp

theorem foldrUnion_eq_annClosS (A : Annotations) (t : String) (dts : List String)
    (hdts : ∀ x, x ∈ dts ↔ ReachVia (nextDown A.ontology) t x) :
    ↑(dts.foldr (fun d acc => A.termAnnotationsF d ∪ acc) ∅) = annClosS A t := by
  ext a
  rw [Finset.mem_coe, mem_foldrUnion, mem_annClosS]
  constructor
  · rintro ⟨d, hd, hm⟩
    obtain ⟨hann, hid⟩ := (mem_termAnnotationsF A a d).mp hm
    exact ⟨hann, hid ▸ (hdts d).mp hd⟩
  · rintro ⟨hann, hr⟩
    exact ⟨a.GOId, (hdts a.GOId).mpr hr, (mem_termAnnotationsF A a a.GOId).mpr ⟨hann, rfl⟩⟩

theorem enrichEntry_eq_specTuple (pV : ℕ → ℕ → ℕ → ℕ → ℚ) (A : Annotations)
    (revD : List (String × String)) (genesSet refSet : Finset String)
    (refAnns : Finset AnnRec) (dts : List String) (s' : Finset AnnRec)
    (h : s' = (dts.foldr (fun d acc => A.termAnnotationsF d ∪ acc) ∅) ∩ refAnns) :
    enrichEntry pV revD genesSet refSet s' = specTuple pV A revD genesSet refSet refAnns dts := by
  subst h
  have hif : ∀ (X Y : Finset String),
      (if X.card < Y.card then Y ∩ X else X ∩ Y) = Y ∩ X := by
    intro X Y
    split_ifs with h
    · rfl
    · exact Finset.inter_comm X Y
  dsimp only [enrichEntry, specTuple]
  rw [hif, hif]

theorem ExtractSuperGraph_ok_characterize (O : Ontology) (seeds vs : List String)
    (h : O.ExtractSuperGraph seeds = some (.ok vs)) :
    ∀ x, x ∈ vs ↔ ReachFromVia (nextUp O) seeds x := by
  refine extractLoop_ok_characterize (nextUp O) seeds (O.extractFuel seeds) [] seeds.dedup vs
    (List.nodup_dedup _) (by simp) (by simp)
    (fun q hq => ⟨q, List.mem_dedup.mp hq, Relation.ReflTransGen.refl⟩)
    (by simp) (fun s hs => Or.inr (List.mem_dedup.mpr hs)) h

/-- C2: on a fresh store, a successful `GetEnrichedTerms` run returns a
mapping whose keys are exactly the ancestor closure (along forward edges) of
the terms directly annotated to the resolved query genes under the evidence
and aspect filters, and whose value at each term `t` is the 3-tuple the claim
states: for any list `dts` enumerating `t` and its descendants, the entry
equals `specTuple` — the mapped query gene list, `p_value(k = |mappedQuery|,
N = |reference|, K = |mappedReference|, n = |query|)`, and
`|mappedReference|`, where mapped genes come from the annotations of `t` and
its descendants intersected with the reference annotations. -/
theorem GetEnrichedTerms_correct (A : Annotations) (evDict : Finset String)
    (pV : ℕ → ℕ → ℕ → ℕ → ℚ) (fuel : ℕ) (genes : List String)
    (reference evidenceCodes : Option (List String)) (aspect : String)
    (c' : AnnCache) (res : List (String × (List String × ℚ × ℕ)))
    (h : A.GetEnrichedTerms evDict pV fuel [] genes reference evidenceCodes aspect =
      some (c', .ok res)) :
    (∀ x, x ∈ res.map Prod.fst ↔
      ReachFromVia (nextUp A.ontology)
        (A.enrichDirectTerms evDict genes evidenceCodes aspect) x) ∧
    ∀ t e, (t, e) ∈ res →
      ∀ dts : List String, (∀ x, x ∈ dts ↔ ReachVia (nextDown A.ontology) t x) →
        e = specTuple pV A (A.GetGeneNamesTranslator genes) (A.enrichQuerySet genes)
          (A.resolveReference reference)
          (A.enrichRefAnns evDict reference evidenceCodes aspect) dts := by
  rw [Annotations.GetEnrichedTerms] at h
  cases hex : A.ontology.ExtractSuperGraph
      (A.enrichDirectTerms evDict genes evidenceCodes aspect) with
  | none => rw [hex] at h; cases h
  | some r₀ =>
    rw [hex] at h
    cases r₀ with
    | error e =>
      dsimp only at h
      injection h with h
      injection h with _ hb
      cases hb
    | ok terms =>
      dsimp only at h
      have hInv0 : CacheInv A (A.enrichRefAnns evDict reference evidenceCodes aspect) [] :=
        fun id v hv => nomatch hv
      obtain ⟨hkeys, hmem⟩ := enrichLoop_sound A pV (A.GetGeneNamesTranslator genes)
        (A.enrichQuerySet genes) (A.resolveReference reference)
        (A.enrichRefAnns evDict reference evidenceCodes aspect) fuel terms [] [] c'
        (.ok res) hInv0 h res rfl
      rw [List.map_nil, List.nil_append] at hkeys
      constructor
      · intro x
        rw [hkeys]
        exact ExtractSuperGraph_ok_characterize A.ontology _ terms hex x
      · intro t e he dts hdts
        rcases hmem t e he with hin | ⟨s', hs', hes⟩
        · cases hin
        · rw [hes]
          refine enrichEntry_eq_specTuple pV A (A.GetGeneNamesTranslator genes)
            (A.enrichQuerySet genes) (A.resolveReference reference)
            (A.enrichRefAnns evDict reference evidenceCodes aspect) dts s'
            (Finset.coe_injective ?_)
          rw [hs', Finset.coe_inter, foldrUnion_eq_annClosS A t dts hdts]

theorem GetEnrichedTerms_correct_witness :
    "T" ∈ enrichResT.map Prod.fst ∧
    (["g1"], (0 : ℚ), 1) = specTuple pV0 storeT (storeT.GetGeneNamesTranslator ["g1"])
      (storeT.enrichQuerySet ["g1"]) (storeT.resolveReference none)
      (storeT.enrichRefAnns evD1 none none "P") ["T"] := by
  have hchar : ∀ x, x ∈ ["T"] ↔ ReachVia (nextDown storeT.ontology) "T" x := by
    intro x
    constructor
    · intro hx
      rcases List.mem_singleton.mp hx with rfl
      exact Relation.ReflTransGen.refl
    · intro hr
      rcases Relation.ReflTransGen.cases_head hr with heq | ⟨c, ⟨ns, hns, hc⟩, _⟩
      · rw [← heq]; exact List.mem_singleton.mpr rfl
      · have hns' : ns = [] := by
          have : nextDown storeT.ontology "T" = some [] := by decide
          rw [this] at hns
          injection hns with hns
          exact hns.symm
        subst hns'
        cases hc
  have main := GetEnrichedTerms_correct storeT evD1 pV0 20 ["g1"] none none "P"
    cacheAfterEnrich enrichResT rfl
  refine ⟨?_, ?_⟩
  · exact (main.1 "T").mpr ⟨"T", by decide, Relation.ReflTransGen.refl⟩
  · exact main.2 "T" (["g1"], (0 : ℚ), 1) (by decide) ["T"] hchar
